import Mathlib

/-!
User behavioural data aggregation: record validation, merge, sharding and output.

A shallow embedding of `types.go`, `utils.go`, `processing.go` and the shard
routing of `main.go`.

Modelling conventions.

* A Go `string` is a Lean `String` (a sequence of Unicode scalar values, i.e.
  valid UTF-8, which is what the JSON decoder hands to the program).  Where the
  code reads single bytes (`s[i]` in `hash`) the UTF-8 encoding is used.
* A Go `map[string]V` is an association list `GoMap V`.  `GoMap.get` is the
  lookup `m[k]` with its `ok` flag, `GoMap.set` is the assignment `m[k] = v`
  (overwrite in place, or add a fresh key).  Go maps carry no order, so two
  maps are "the same map" when every lookup agrees (`GoMap.Equiv`).
* `*UserData` values stored in the users map are modelled by value: a write
  through the pointer is a `GoMap.set` of the updated value under the same key.
* `*stream.Record` is `Option Record`, `none` being the nil pointer.
* `int64` timestamps are only compared, never computed with, and are integers.
* The event counter `user.Events[eventName]++` is a Go `int`, so the increment wraps
  at `2^63-1`.  `incrementEvent64`, `dispatch64`, `processRecord64` and
  `processRecords64` are the functions with that wrapping increment, and the
  statements about the value a counter takes on an arbitrary users map are made
  on them.  `incrementEvent`, `dispatch`, `processRecord` and `processRecords`
  carry the counter in exact arithmetic; the two agree call by call unless a
  counter stands at `2^63-1` (`incrementEvent64_eq`, `processRecord64_of_not_event`),
  and on every run of fewer than `2^63` records from the empty users map
  (`processRecords64_eq_processRecords`).
* `int` in `hash` is a 64-bit two's-complement integer: every arithmetic step is
  wrapped by `wrapInt`.
* Of `output` the pure part is modelled: the merge of the shards, `sort.Strings`
  (an insertion sort for Go's byte-wise string order; the sorted result does not
  depend on the algorithm), and the formatting of the lines.  Creating the file and
  write errors are left out.  A missing user at `allUsers[userID]` is `none`.
* The worker loop is modelled for a single worker taking the records in order.
-/

set_option maxRecDepth 100000

namespace UserBehaviour

/-! ## Go maps -/

/-- Go `map[string]V` as an association list. -/
abbrev GoMap (V : Type) := List (String × V)

/-- The lookup `v, ok := m[k]`: `some v` when `k` is present, `none` otherwise. -/
def GoMap.get {V : Type} : GoMap V → String → Option V
  | [], _ => none
  | (k', v) :: rest, k => if k' = k then some v else GoMap.get rest k

/-- The assignment `m[k] = v`. -/
def GoMap.set {V : Type} : GoMap V → String → V → GoMap V
  | [], k, v => [(k, v)]
  | (k', v') :: rest, k, v =>
    if k' = k then (k, v) :: rest else (k', v') :: GoMap.set rest k v

/-- The keys of a map, as produced by `for k := range m`. -/
def GoMap.keys {V : Type} (m : GoMap V) : List String := m.map Prod.fst

/-- The values of a map. -/
def GoMap.values {V : Type} (m : GoMap V) : List V := m.map Prod.snd

/-- Two maps are the same Go map when every lookup agrees. -/
def GoMap.Equiv {V : Type} (m1 m2 : GoMap V) : Prop := ∀ k, GoMap.get m1 k = GoMap.get m2 k

/-! ## types.go -/

/-- Record represents a single record in the data stream. -/
structure Record where
  ID : String
  Type_ : String
  Name : String
  UserID : String
  Data : GoMap String
  Timestamp : Int
deriving DecidableEq, Repr

/-- AttributeDataWithTimestamp wraps an attribute's data with its update timestamp. -/
structure AttributeDataWithTimestamp where
  Data : String
  Timestamp : Int
deriving DecidableEq, Repr

/-- UserData stores the state of a user including attributes and events. -/
structure UserData where
  Attributes : GoMap AttributeDataWithTimestamp
  Events : GoMap Int
  ProcessedEventIDs : GoMap Bool
deriving DecidableEq, Repr

/-- The users map of one shard, `map[string]*UserData`. -/
abbrev Users := GoMap UserData

/-- Two user aggregates are the same when their three maps are. -/
def UserData.Equiv (a b : UserData) : Prop :=
  GoMap.Equiv a.Attributes b.Attributes ∧ GoMap.Equiv a.Events b.Events ∧
    GoMap.Equiv a.ProcessedEventIDs b.ProcessedEventIDs

/-- Two users maps are the same when they hold the same user IDs with the same aggregates. -/
def Users.Equiv (m1 m2 : Users) : Prop :=
  ∀ u, match GoMap.get m1 u, GoMap.get m2 u with
    | none, none => True
    | some a, some b => UserData.Equiv a b
    | _, _ => False

/-! ## main.go: constants and shard routing -/

def EVENT : String := "event"

def ATTRIBUTES : String := "attributes"

/-- Number of shards. -/
def numShards : Int := 32

/-- Wrap an integer to the range of a 64-bit two's-complement Go `int`. -/
def wrapInt (x : Int) : Int := (x + 2 ^ 63) % 2 ^ 64 - 2 ^ 63

/-- The bytes `s[0], ..., s[len(s)-1]` of a Go string. -/
def bytes (s : String) : List Nat :=
  (s.data.flatMap String.utf8EncodeChar).map UInt8.toNat

/-- The loop body of `hash`, folded over the bytes: `h = 31*h + int(s[i])`. -/
def hashLoop (h : Int) (bs : List Nat) : Int :=
  bs.foldl (fun acc b => wrapInt (wrapInt (31 * acc) + (b : Int))) h

/-- The string hash of `main.go`. -/
def hash (s : String) : Int := hashLoop 0 (bytes s)

/-- The index expression `hash(rec.UserID) % numShards` of the worker, with Go's
truncated remainder. -/
def shardIndex (userID : String) : Int := Int.tmod (hash userID) numShards

/-- Indexing a slice `shards[i]`: `none` models the run-time panic
"index out of range". -/
def indexShards {α : Type} (shards : List α) (i : Int) : Option α :=
  if 0 ≤ i ∧ i < shards.length then shards.get? i.toNat else none

/-! ## utils.go: validation -/

/-- Go `unicode.IsSpace`: the code points with the Unicode White_Space property. -/
def isSpace (c : Char) : Bool :=
  let n := c.toNat
  (9 ≤ n && n ≤ 13) || n = 0x20 || n = 0x85 || n = 0xA0 || n = 0x1680 ||
  (0x2000 ≤ n && n ≤ 0x200a) || n = 0x2028 || n = 0x2029 || n = 0x202f ||
  n = 0x205f || n = 0x3000

/-- Go `strings.TrimSpace`: drop leading and trailing white space. -/
def TrimSpace (s : String) : String :=
  String.mk ((s.data.dropWhile isSpace).reverse.dropWhile isSpace).reverse

/-- The function `isEmpty` checks if a given string is empty after trimming spaces. -/
def isEmpty (s : String) : Bool := decide (TrimSpace s = "")

/-- The function `validate` checks if the record contains all required fields. -/
def validate (record : Record) : Bool :=
  !(isEmpty record.ID || isEmpty record.UserID || isEmpty record.Type_)

/-! ## processing.go -/

/-- The two errors `processRecord` can return. -/
inductive ProcError where
  | nilRecord
  | invalidRecord (record : Record)
deriving DecidableEq, Repr

/-- The freshly allocated `&UserData{...}` with three empty maps. -/
def newUserData : UserData :=
  { Attributes := [], Events := [], ProcessedEventIDs := [] }

/-- The function `incrementEvent` increments the event count for a user and marks
the event ID as processed; an ID already present changes nothing. The counter is
carried in exact arithmetic here; `incrementEvent64` is the same function with the
wrapping 64-bit `int`. -/
def incrementEvent (user : UserData) (eventName eventID : String) : UserData :=
  match GoMap.get user.ProcessedEventIDs eventID with
  | some _ => user
  | none =>
    { user with
      Events := GoMap.set user.Events eventName ((GoMap.get user.Events eventName).getD 0 + 1)
      ProcessedEventIDs := GoMap.set user.ProcessedEventIDs eventID true }

/-- One iteration of the loop of `processAttribute` for the pair `(key, value)`. -/
def attributeStep (timestamp : Int) (attrs : GoMap AttributeDataWithTimestamp)
    (kv : String × String) : GoMap AttributeDataWithTimestamp :=
  match GoMap.get attrs kv.1 with
  | some attr =>
    if timestamp > attr.Timestamp then
      GoMap.set attrs kv.1 { Data := kv.2, Timestamp := timestamp }
    else attrs
  | none => GoMap.set attrs kv.1 { Data := kv.2, Timestamp := timestamp }

/-- The function `processAttribute` updates or adds new attributes to the user's
attribute map: `for key, value := range record.Data`. -/
def processAttribute (user : UserData) (record : Record) : UserData :=
  { user with Attributes := record.Data.foldl (attributeStep record.Timestamp) user.Attributes }

/-- The `switch record.Type` of `processRecord`. -/
def dispatch (user : UserData) (record : Record) : UserData :=
  if record.Type_ = EVENT then incrementEvent user record.Name record.ID
  else if record.Type_ = ATTRIBUTES then processAttribute user record
  else user

/-- The function `processRecord` processes a single record from the data stream.
It returns the users map after the call and the returned error (`none` is `nil`). -/
def processRecord (users : Users) (record : Option Record) : Users × Option ProcError :=
  match record with
  | none => (users, some ProcError.nilRecord)
  | some r =>
    if !validate r then (users, some (ProcError.invalidRecord r))
    else
      match GoMap.get users r.UserID with
      | some user => (GoMap.set users r.UserID (dispatch user r), none)
      | none =>
        let users1 := GoMap.set users r.UserID newUserData
        (GoMap.set users1 r.UserID (dispatch newUserData r), none)

/-- Apply `processRecord` to the records one after another (the loop
`for rec := range records { processRecord(users, rec) }`), dropping the errors. -/
def processRecords (users : Users) (records : List (Option Record)) : Users :=
  records.foldl (fun us rec => (processRecord us rec).1) users

/-- The attribute entry stored for key `k` of user `u`, if any. -/
def attrOf (users : Users) (u k : String) : Option AttributeDataWithTimestamp :=
  (GoMap.get users u).bind (fun ud => GoMap.get ud.Attributes k)

/-! ## Specification-side helpers -/

/-- The ID `id` is recorded as processed for user `u`. -/
def Processed (users : Users) (u id : String) : Prop :=
  ∃ ud, GoMap.get users u = some ud ∧ GoMap.get ud.ProcessedEventIDs id ≠ none

/-- The entry "highest timestamp wins, the stored one on a tie" picks between the
stored entry `old` and an update `(v, ts)`. -/
def mergeAttr (old : Option AttributeDataWithTimestamp) (v : String) (ts : Int) :
    AttributeDataWithTimestamp :=
  match old with
  | none => { Data := v, Timestamp := ts }
  | some a => if ts > a.Timestamp then { Data := v, Timestamp := ts } else a

/-- The record `r` is a valid attribute record for user `u` whose data contains key `k`. -/
def IsAttrUpdate (u k : String) (r : Record) : Prop :=
  validate r = true ∧ r.Type_ = ATTRIBUTES ∧ r.UserID = u ∧ GoMap.get r.Data k ≠ none

instance (u k : String) (r : Record) : Decidable (IsAttrUpdate u k r) := by
  unfold IsAttrUpdate
  infer_instance

/-- The count invariant of one aggregate: the event counters add up to the number
of processed event IDs, every counter is at least 1, and both maps hold each key
once (so the list sums and lengths are those of the Go maps). -/
def CountInv (ud : UserData) : Prop :=
  (GoMap.values ud.Events).sum = ((GoMap.keys ud.ProcessedEventIDs).length : Int) ∧
  (∀ c ∈ GoMap.values ud.Events, (1 : Int) ≤ c) ∧
  (GoMap.keys ud.Events).Nodup ∧ (GoMap.keys ud.ProcessedEventIDs).Nodup

/-- A user ID that overflows the 64-bit accumulator of `hash`. -/
def overflowingUserID : String := "user_1234567890abc"

/-- The 32 empty shards allocated by `main`. -/
def initialShards : List Users := List.replicate 32 []

/-- The documented tie case: two attribute records for the same user that share an
attribute key and have equal timestamps. -/
def AttrTie (r1 r2 : Record) : Prop :=
  r1.Type_ = ATTRIBUTES ∧ r2.Type_ = ATTRIBUTES ∧ r1.UserID = r2.UserID ∧
    r1.Timestamp = r2.Timestamp ∧
    ∃ k, GoMap.get r1.Data k ≠ none ∧ GoMap.get r2.Data k ≠ none

/-- Two event records for the same user that carry the same ID under different names. -/
def EventIDClash (r1 r2 : Record) : Prop :=
  r1.Type_ = EVENT ∧ r2.Type_ = EVENT ∧ r1.UserID = r2.UserID ∧ r1.ID = r2.ID ∧
    r1.Name ≠ r2.Name

/-! ## Sample records -/

/-- An event record `login` with ID `1` for user `u1`. -/
def sampleLogin : Record :=
  { ID := "1", Type_ := "event", Name := "login", UserID := "u1", Data := [], Timestamp := 10 }

/-- An attribute record setting `plan` to `pro` at time 5 for user `u1`. -/
def samplePlanPro : Record :=
  { ID := "2", Type_ := "attributes", Name := "", UserID := "u1",
    Data := [("plan", "pro")], Timestamp := 5 }

/-- An attribute record setting `plan` to `free` at time 20 for user `u1`. -/
def samplePlanFree : Record :=
  { ID := "2", Type_ := "attributes", Name := "", UserID := "u1",
    Data := [("plan", "free")], Timestamp := 20 }

/-- An event record `logout` with ID `3` for user `u1`. -/
def sampleLogout : Record :=
  { ID := "3", Type_ := "event", Name := "logout", UserID := "u1", Data := [], Timestamp := 30 }

/-- An event record `logout` that reuses ID `1` for user `u1`. -/
def sampleLogoutSameID : Record :=
  { ID := "1", Type_ := "event", Name := "logout", UserID := "u1", Data := [], Timestamp := 30 }

/-- An attribute record setting `plan` to `trial` at time 5 for user `u1`. -/
def samplePlanTrial : Record :=
  { ID := "4", Type_ := "attributes", Name := "", UserID := "u1",
    Data := [("plan", "trial")], Timestamp := 5 }

/-- The first record of `TestConcurrency`: type `login` for `user1`. -/
def testLogin : Record :=
  { ID := "1", Type_ := "login", Name := "", UserID := "user1", Data := [], Timestamp := 0 }

/-- The second record of `TestConcurrency`: type `logout` for `user2`. -/
def testLogout : Record :=
  { ID := "2", Type_ := "logout", Name := "", UserID := "user2", Data := [], Timestamp := 0 }

/-- The aggregate of user `u` as `processRecord` sees it: the stored one, or the
fresh empty one when the user is not in the map. -/
def aggregateOf (users : Users) (u : String) : UserData :=
  (GoMap.get users u).getD newUserData

/-- An event record `signup` with ID `1` for user `u2`. -/
def sampleSignupU2 : Record :=
  { ID := "1", Type_ := "event", Name := "signup", UserID := "u2", Data := [], Timestamp := 1 }

/-- An event record `login` with ID `1` for user `u2`. -/
def sampleLoginU2 : Record :=
  { ID := "1", Type_ := "event", Name := "login", UserID := "u2", Data := [], Timestamp := 40 }

/-- An event record `upgrade` for user `u1` that reuses ID `2` of the attribute records. -/
def sampleUpgrade : Record :=
  { ID := "2", Type_ := "event", Name := "upgrade", UserID := "u1", Data := [], Timestamp := 50 }

/-- The exact polynomial sum of `s[i] * 31^(len(s)-1-i)` over the bytes of a string. -/
def polyHash : List Nat → Int
  | [] => 0
  | b :: rest => (b : Int) * 31 ^ rest.length + polyHash rest

/-! ## utils.go: output -/

/-- Byte-wise lexicographic comparison `a <= b` of two byte sequences. -/
def bytesLe : List Nat → List Nat → Bool
  | [], _ => true
  | _ :: _, [] => false
  | a :: as, b :: bs => decide (a < b) || (decide (a = b) && bytesLe as bs)

/-- Go's string comparison `a <= b`, which is byte-wise. -/
def strLe (a b : String) : Prop := bytesLe (bytes a) (bytes b) = true

instance : DecidableRel strLe := fun a b => by
  unfold strLe
  infer_instance

/-- Go's string comparison `a < b`: `a <= b` and the strings differ. -/
def strLt (a b : String) : Prop := strLe a b ∧ a ≠ b

instance : DecidableRel strLt := fun a b => by
  unfold strLt
  infer_instance

/-- Go `sort.Strings`: the strings in ascending order. -/
def sortStrings (l : List String) : List String := l.insertionSort strLe

/-- Go `strings.Join(elems, sep)`. -/
def Join : List String → String → String
  | [], _ => ""
  | [a], _ => a
  | a :: b :: rest, sep => a ++ sep ++ Join (b :: rest) sep

/-- The verb `%d` of `fmt.Sprintf` on an `int`. -/
def formatInt (n : Int) : String := toString n

/-- The first loops of `output`: every entry of every shard is stored into `allUsers`. -/
def mergeShards (shards : List Users) : Users :=
  shards.foldl (fun allUsers shard => shard.foldl (fun acc p => GoMap.set acc p.1 p.2) allUsers) []

/-- The slice `parts` built for one user: the attribute fields in sorted key order,
then the event fields in sorted key order. -/
def userParts (user : UserData) : List String :=
  (sortStrings (GoMap.keys user.Attributes)).map
      (fun k => k ++ "=" ++ ((GoMap.get user.Attributes k).getD { Data := "", Timestamp := 0 }).Data)
    ++ (sortStrings (GoMap.keys user.Events)).map
      (fun k => k ++ "=" ++ formatInt ((GoMap.get user.Events k).getD 0))

/-- The line `fmt.Sprintf("%s,%s\n", userID, strings.Join(parts, ","))` of one user. -/
def userLine (userID : String) (user : UserData) : String :=
  userID ++ "," ++ Join (userParts user) "," ++ "\n"

/-- The loop over the sorted keys: `user := allUsers[userID]`, then the line of that
user is written. `none` models the nil dereference on a missing user. -/
def writeLines (allUsers : Users) : List String → Option (List String)
  | [] => some []
  | userID :: rest =>
    match GoMap.get allUsers userID with
    | none => none
    | some user => (writeLines allUsers rest).map (fun lines => userLine userID user :: lines)

/-- The pure part of `output`: merge the shards, sort the user IDs, and produce the
lines written to the file, in order. -/
def outputLines (shards : List Users) : Option (List String) :=
  let allUsers := mergeShards shards
  writeLines allUsers (sortStrings (GoMap.keys allUsers))

/-- One iteration of the worker loop of `main`, run on its own: a nil record is
skipped, otherwise the record is merged into the shard selected by the hash of its
user ID. `none` models the index-out-of-range panic. -/
def workerStep (shards : List Users) (rec : Option Record) : Option (List Users) :=
  match rec with
  | none => some shards
  | some r =>
    match indexShards shards (shardIndex r.UserID) with
    | none => none
    | some shard =>
      some (shards.set (shardIndex r.UserID).toNat (processRecord shard (some r)).1)

/-- A single worker draining the channel. -/
def runWorker (shards : List Users) : List (Option Record) → Option (List Users)
  | [] => some shards
  | rec :: rest =>
    match workerStep shards rec with
    | none => none
    | some shards1 => runWorker shards1 rest

/-- The three records of the scenario of the specification, in order. -/
def scenarioRecords : List (Option Record) :=
  [some sampleLogin, some samplePlanPro, some samplePlanFree]

/-- The UTF-8 encoding of the code point `n`, in arithmetic form. -/
def utf8Nat (n : Nat) : List Nat :=
  if n ≤ 0x7f then [n]
  else if n ≤ 0x7ff then [0xC0 + n / 64 % 32, 0x80 + n % 64]
  else if n ≤ 0xffff then [0xE0 + n / 4096 % 16, 0x80 + n / 64 % 64, 0x80 + n % 64]
  else [0xF0 + n / 262144 % 8, 0x80 + n / 4096 % 64, 0x80 + n / 64 % 64, 0x80 + n % 64]

/-! ## processing.go with the event counter as a 64-bit `int` -/

/-- The function `incrementEvent` with `user.Events[eventName]++` on the Go `int` it is:
the increment wraps from `2^63-1` to `-2^63`. -/
def incrementEvent64 (user : UserData) (eventName eventID : String) : UserData :=
  match GoMap.get user.ProcessedEventIDs eventID with
  | some _ => user
  | none =>
    { user with
      Events := GoMap.set user.Events eventName
        (wrapInt ((GoMap.get user.Events eventName).getD 0 + 1))
      ProcessedEventIDs := GoMap.set user.ProcessedEventIDs eventID true }

/-- The `switch record.Type` of `processRecord`, with the wrapping counter. -/
def dispatch64 (user : UserData) (record : Record) : UserData :=
  if record.Type_ = EVENT then incrementEvent64 user record.Name record.ID
  else if record.Type_ = ATTRIBUTES then processAttribute user record
  else user

/-- The function `processRecord`, with the wrapping counter. -/
def processRecord64 (users : Users) (record : Option Record) : Users × Option ProcError :=
  match record with
  | none => (users, some ProcError.nilRecord)
  | some r =>
    if !validate r then (users, some (ProcError.invalidRecord r))
    else
      match GoMap.get users r.UserID with
      | some user => (GoMap.set users r.UserID (dispatch64 user r), none)
      | none =>
        let users1 := GoMap.set users r.UserID newUserData
        (GoMap.set users1 r.UserID (dispatch64 newUserData r), none)

/-- Apply `processRecord64` to the records one after another, dropping the errors. -/
def processRecords64 (users : Users) (records : List (Option Record)) : Users :=
  records.foldl (fun us rec => (processRecord64 us rec).1) users

/-- A users map in which the counter `login` of `u1` is the largest `int`, `2^63-1`,
and no event ID is recorded. -/
def usersAtMaxCounter : Users :=
  [("u1", { Attributes := [], Events := [("login", 9223372036854775807)],
            ProcessedEventIDs := [] })]

/-- An event record `signup` with ID `2` for user `u1`. -/
def sampleSignupID2 : Record :=
  { ID := "2", Type_ := "event", Name := "signup", UserID := "u1", Data := [], Timestamp := 2 }

/-- The value of the counter `name` of user `u` as the next `++` reads it: 0 when the
user or the counter is absent. -/
def counterOf (users : Users) (u name : String) : Int :=
  (GoMap.get (aggregateOf users u).Events name).getD 0

/-! ## Lemmas on Go maps -/

theorem GoMap.get_set_self {V : Type} (m : GoMap V) (k : String) (v : V) :
    GoMap.get (GoMap.set m k v) k = some v := by
  induction m with
  | nil => simp [GoMap.set, GoMap.get]
  | cons p rest ih =>
    obtain ⟨k', v'⟩ := p
    by_cases h : k' = k
    · simp [GoMap.set, GoMap.get, h]
    · simp [GoMap.set, GoMap.get, h, ih]

theorem GoMap.get_set_ne {V : Type} (m : GoMap V) (k k' : String) (v : V) (hne : k' ≠ k) :
    GoMap.get (GoMap.set m k v) k' = GoMap.get m k' := by
  induction m with
  | nil => simp [GoMap.set, GoMap.get, Ne.symm hne]
  | cons p rest ih =>
    obtain ⟨k0, v0⟩ := p
    by_cases h : k0 = k
    · subst h
      simp [GoMap.set, GoMap.get, Ne.symm hne]
    · by_cases h2 : k0 = k'
      · subst h2
        simp [GoMap.set, GoMap.get, hne]
      · simp [GoMap.set, GoMap.get, h, h2, ih]

theorem GoMap.get_set {V : Type} (m : GoMap V) (k k' : String) (v : V) :
    GoMap.get (GoMap.set m k v) k' = if k' = k then some v else GoMap.get m k' := by
  by_cases h : k' = k
  · subst h
    simp [GoMap.get_set_self]
  · simp [h, GoMap.get_set_ne m k k' v h]

theorem GoMap.set_eq_self {V : Type} (m : GoMap V) (k : String) (v : V)
    (h : GoMap.get m k = some v) : GoMap.set m k v = m := by
  induction m with
  | nil => simp [GoMap.get] at h
  | cons p rest ih =>
    obtain ⟨k0, v0⟩ := p
    by_cases hk : k0 = k
    · subst hk
      simp [GoMap.get] at h
      simp [GoMap.set, h]
    · simp [GoMap.get, hk] at h
      simp [GoMap.set, hk, ih h]

theorem GoMap.set_set {V : Type} (m : GoMap V) (k : String) (v w : V) :
    GoMap.set (GoMap.set m k v) k w = GoMap.set m k w := by
  induction m with
  | nil => simp [GoMap.set]
  | cons p rest ih =>
    obtain ⟨k0, v0⟩ := p
    by_cases hk : k0 = k
    · simp [GoMap.set, hk]
    · simp [GoMap.set, hk, ih]

theorem GoMap.mem_keys_iff {V : Type} (m : GoMap V) (k : String) :
    k ∈ GoMap.keys m ↔ GoMap.get m k ≠ none := by
  induction m with
  | nil => simp [GoMap.keys, GoMap.get]
  | cons p rest ih =>
    obtain ⟨k0, v0⟩ := p
    by_cases hk : k0 = k
    · simp [GoMap.keys, GoMap.get, hk]
    · have ih' : k ∈ List.map Prod.fst rest ↔ GoMap.get rest k ≠ none := ih
      simp only [GoMap.keys, List.map_cons, List.mem_cons, GoMap.get, hk, if_false]
      rw [ih']
      constructor
      · rintro (h | h)
        · exact absurd h.symm hk
        · exact h
      · intro h
        exact Or.inr h

/-! ## Validation -/

theorem isEmpty_eq_false_iff (s : String) : isEmpty s = false ↔ TrimSpace s ≠ "" := by
  simp [isEmpty]

/-- A string is empty after trimming exactly when all its characters are white space. -/
theorem TrimSpace_eq_empty_iff (s : String) :
    TrimSpace s = "" ↔ ∀ c ∈ s.data, isSpace c = true := by
  have hmk : ∀ l : List Char, String.mk l = "" ↔ l = [] := by
    intro l
    constructor
    · intro h
      have := congrArg String.data h
      simpa using this
    · rintro rfl
      rfl
  unfold TrimSpace
  rw [hmk, List.reverse_eq_nil_iff, List.dropWhile_eq_nil_iff]
  have h1 : (∀ x ∈ (s.data.dropWhile isSpace).reverse, isSpace x = true) ↔
      (s.data.dropWhile isSpace).dropWhile isSpace = [] := by
    rw [List.dropWhile_eq_nil_iff]
    simp only [List.mem_reverse]
  rw [h1, List.dropWhile_idempotent, List.dropWhile_eq_nil_iff]

/-- C1: for every (non-nil) record, `validate` returns true exactly when `ID`,
`UserID` and `Type` are each non-empty after trimming leading and trailing white
space, and replacing `Name`, `Data` and `Timestamp` by any other values never
changes the result. -/
theorem validate_iff_required_fields_nonempty (r : Record) :
    (validate r = true ↔
      (TrimSpace r.ID ≠ "" ∧ TrimSpace r.UserID ≠ "" ∧ TrimSpace r.Type_ ≠ "")) ∧
    (∀ (name : String) (data : GoMap String) (ts : Int),
      validate { r with Name := name, Data := data, Timestamp := ts } = validate r) := by
  refine ⟨?_, fun _ _ _ => rfl⟩
  simp [validate, isEmpty, and_assoc]

/-! ## processRecord: errors -/

/-- C2: `processRecord` returns an error exactly when the record is nil or fails
`validate`, and whenever it returns an error the users map is returned as it was
(so no aggregate is created and none is changed). -/
theorem processRecord_error_iff_and_unchanged (users : Users) (record : Option Record) :
    ((processRecord users record).2 ≠ none ↔
      (record = none ∨ ∃ r, record = some r ∧ validate r = false)) ∧
    ((processRecord users record).2 ≠ none → (processRecord users record).1 = users) := by
  cases record with
  | none => simp [processRecord]
  | some r =>
    by_cases hv : validate r = true
    · cases hg : GoMap.get users r.UserID <;> simp [processRecord, hv, hg]
    · simp only [Bool.not_eq_true] at hv
      simp [processRecord, hv]

/-! ## processRecord: the successful path -/

theorem processRecord_none (users : Users) : (processRecord users none).1 = users := rfl

theorem processRecord_invalid (users : Users) (r : Record) (hv : validate r = false) :
    (processRecord users (some r)).1 = users := by
  simp [processRecord, hv]

/-- On a valid record the call stores, under the record's user ID, the aggregate
found there (or a fresh one) after the type switch. -/
theorem processRecord_valid (users : Users) (r : Record) (hv : validate r = true) :
    (processRecord users (some r)).1 =
      GoMap.set users r.UserID (dispatch ((GoMap.get users r.UserID).getD newUserData) r) := by
  cases hg : GoMap.get users r.UserID with
  | none => simp [processRecord, hv, hg, GoMap.set_set]
  | some ud => simp [processRecord, hv, hg]

theorem processRecords_nil (users : Users) : processRecords users [] = users := rfl

theorem processRecords_cons (users : Users) (rec : Option Record) (rest : List (Option Record)) :
    processRecords users (rec :: rest) = processRecords (processRecord users rec).1 rest := rfl

theorem processRecords_append (users : Users) (xs ys : List (Option Record)) :
    processRecords users (xs ++ ys) = processRecords (processRecords users xs) ys := by
  simp [processRecords, List.foldl_append]

/-! ## Event deduplication -/

theorem incrementEvent_processed_mono (ud : UserData) (name eid id : String)
    (h : GoMap.get ud.ProcessedEventIDs id ≠ none) :
    GoMap.get (incrementEvent ud name eid).ProcessedEventIDs id ≠ none := by
  unfold incrementEvent
  cases hg : GoMap.get ud.ProcessedEventIDs eid with
  | some b => simpa using h
  | none =>
    simp only [GoMap.get_set]
    split
    · simp
    · exact h

theorem dispatch_processed_mono (ud : UserData) (r : Record) (id : String)
    (h : GoMap.get ud.ProcessedEventIDs id ≠ none) :
    GoMap.get (dispatch ud r).ProcessedEventIDs id ≠ none := by
  unfold dispatch
  split
  · exact incrementEvent_processed_mono ud _ _ id h
  · split
    · simpa [processAttribute] using h
    · exact h

theorem Processed_step (users : Users) (rec : Option Record) (u id : String)
    (h : Processed users u id) : Processed (processRecord users rec).1 u id := by
  cases rec with
  | none => exact h
  | some r =>
    by_cases hv : validate r = true
    · rw [processRecord_valid users r hv]
      obtain ⟨ud, hud, hid⟩ := h
      by_cases hu : u = r.UserID
      · subst hu
        refine ⟨_, GoMap.get_set_self _ _ _, ?_⟩
        rw [hud]
        exact dispatch_processed_mono ud r id hid
      · exact ⟨ud, by rw [GoMap.get_set_ne _ _ _ _ hu]; exact hud, hid⟩
    · simp only [Bool.not_eq_true] at hv
      rw [processRecord_invalid users r hv]
      exact h

theorem Processed_steps (recs : List (Option Record)) (users : Users) (u id : String)
    (h : Processed users u id) : Processed (processRecords users recs) u id := by
  induction recs generalizing users with
  | nil => exact h
  | cons rec rest ih =>
    rw [processRecords_cons]
    exact ih _ (Processed_step users rec u id h)

theorem Processed_after_event (users : Users) (r : Record) (hv : validate r = true)
    (ht : r.Type_ = EVENT) : Processed (processRecord users (some r)).1 r.UserID r.ID := by
  rw [processRecord_valid users r hv]
  refine ⟨_, GoMap.get_set_self _ _ _, ?_⟩
  simp only [dispatch, ht, if_true]
  unfold incrementEvent
  cases hg : GoMap.get ((GoMap.get users r.UserID).getD newUserData).ProcessedEventIDs r.ID with
  | some b => simp [hg]
  | none => simp [GoMap.get_set_self]

theorem replay_noop (users : Users) (r : Record) (hv : validate r = true)
    (ht : r.Type_ = EVENT) (h : Processed users r.UserID r.ID) :
    (processRecord users (some r)).1 = users := by
  obtain ⟨ud, hud, hid⟩ := h
  rw [processRecord_valid users r hv]
  apply GoMap.set_eq_self
  rw [hud]
  simp only [Option.getD_some, dispatch, ht, if_true]
  unfold incrementEvent
  cases hg : GoMap.get ud.ProcessedEventIDs r.ID with
  | some b => rfl
  | none => exact absurd hg hid

/-- C3 (dedup idempotence): for every users map, every valid event record `r` and
every finite sequence `s` of records (nil and invalid ones included), applying
`r`, then `s`, then `r` again gives the same users map as applying `r` and then
`s`; in particular applying `r` twice gives the same map as applying it once. -/
theorem dedup_idempotent (users : Users) (r : Record) (s : List (Option Record))
    (hv : validate r = true) (ht : r.Type_ = EVENT) :
    processRecords users (some r :: s ++ [some r]) = processRecords users (some r :: s) ∧
    processRecords users [some r, some r] = processRecords users [some r] := by
  have key : ∀ t : List (Option Record),
      processRecords users (some r :: t ++ [some r]) = processRecords users (some r :: t) := by
    intro t
    rw [processRecords_append]
    show (processRecord (processRecords users (some r :: t)) (some r)).1 = _
    apply replay_noop _ r hv ht
    rw [processRecords_cons]
    exact Processed_steps t _ _ _ (Processed_after_event users r hv ht)
  exact ⟨key s, key []⟩

/-- Witness for C3: `login` for `u1`, then an attribute update, another event and
a nil record, then `login` again. -/
theorem dedup_idempotent_witness :
    validate sampleLogin = true ∧ sampleLogin.Type_ = EVENT ∧
    processRecords [] (some sampleLogin :: [some samplePlanPro, some sampleLogout, none]
        ++ [some sampleLogin])
      = processRecords [] (some sampleLogin :: [some samplePlanPro, some sampleLogout, none]) ∧
    processRecords [] [some sampleLogin, some sampleLogin] = processRecords [] [some sampleLogin] :=
  ⟨by decide, by decide,
    dedup_idempotent [] sampleLogin [some samplePlanPro, some sampleLogout, none]
      (by decide) (by decide)⟩

/-! ## Attribute updates -/

theorem EVENT_ne_ATTRIBUTES : ATTRIBUTES ≠ EVENT := by decide

theorem attributeStep_get (ts : Int) (attrs : GoMap AttributeDataWithTimestamp)
    (kv : String × String) (k : String) :
    GoMap.get (attributeStep ts attrs kv) k =
      if k = kv.1 then some (mergeAttr (GoMap.get attrs k) kv.2 ts) else GoMap.get attrs k := by
  unfold attributeStep
  by_cases hk : k = kv.1
  · subst hk
    cases hg : GoMap.get attrs kv.1 with
    | none => simp [mergeAttr, GoMap.get_set_self]
    | some a =>
      by_cases hlt : ts > a.Timestamp
      · simp [mergeAttr, hlt, GoMap.get_set_self]
      · simp [mergeAttr, hlt, hg]
  · cases hg : GoMap.get attrs kv.1 with
    | none => simp [hk, GoMap.get_set_ne _ _ _ _ hk]
    | some a =>
      by_cases hlt : ts > a.Timestamp
      · simp [hk, hlt, GoMap.get_set_ne _ _ _ _ hk]
      · simp [hk, hlt]

theorem mergeAttr_idem (old : Option AttributeDataWithTimestamp) (v w : String) (ts : Int) :
    mergeAttr (some (mergeAttr old v ts)) w ts = mergeAttr old v ts := by
  cases old with
  | none => simp [mergeAttr]
  | some a =>
    by_cases hlt : ts > a.Timestamp
    · simp [mergeAttr, hlt]
    · simp [mergeAttr, hlt]

/-- The whole loop of `processAttribute`, read off at one key: the key's first
pair in `data` is merged into the stored entry, other keys are left alone. -/
theorem foldl_attributeStep_get (ts : Int) (data : GoMap String)
    (attrs : GoMap AttributeDataWithTimestamp) (k : String) :
    GoMap.get (data.foldl (attributeStep ts) attrs) k =
      match GoMap.get data k with
      | none => GoMap.get attrs k
      | some v => some (mergeAttr (GoMap.get attrs k) v ts) := by
  induction data generalizing attrs with
  | nil => simp [GoMap.get]
  | cons kv rest ih =>
    obtain ⟨k0, v0⟩ := kv
    rw [List.foldl_cons, ih, attributeStep_get]
    by_cases hk : k0 = k
    · subst hk
      cases hr : GoMap.get rest k0 with
      | none => simp [GoMap.get]
      | some w => simp [GoMap.get, mergeAttr_idem]
    · have hk' : ¬ k = k0 := fun h => hk h.symm
      simp [GoMap.get, hk, hk']

/-- The effect of one valid attribute record on the entry stored for `(u, k)`. -/
theorem attrOf_processRecord_attributes (users : Users) (r : Record) (u k : String)
    (hv : validate r = true) (ht : r.Type_ = ATTRIBUTES) :
    attrOf (processRecord users (some r)).1 u k =
      if u = r.UserID then
        match GoMap.get r.Data k with
        | none => attrOf users u k
        | some v => some (mergeAttr (attrOf users u k) v r.Timestamp)
      else attrOf users u k := by
  rw [processRecord_valid users r hv]
  unfold attrOf
  by_cases hu : u = r.UserID
  · subst hu
    have hd : ∀ ud, (dispatch ud r).Attributes =
        r.Data.foldl (attributeStep r.Timestamp) ud.Attributes := by
      intro ud
      simp [dispatch, ht, EVENT_ne_ATTRIBUTES, processAttribute]
    simp only [GoMap.get_set_self, Option.some_bind, if_true]
    cases hg : GoMap.get users r.UserID with
    | none =>
      simp only [Option.getD_none, Option.none_bind, hd, foldl_attributeStep_get]
      simp [newUserData, GoMap.get]
    | some ud =>
      simp only [Option.getD_some, Option.some_bind, hd, foldl_attributeStep_get]
  · simp [GoMap.get_set_ne _ _ _ _ hu, hu]

/-- After a run of attribute updates for `(u, k)` from a state without an entry,
the stored entry is the one of an update of maximal timestamp. -/
theorem attr_run_invariant (users : Users) (u k : String) (hstart : attrOf users u k = none)
    (L : List Record) (hall : ∀ r ∈ L, IsAttrUpdate u k r) :
    (L = [] ∧ attrOf (processRecords users (L.map some)) u k = none) ∨
    ∃ r ∈ L, ∃ v, GoMap.get r.Data k = some v ∧ (∀ r' ∈ L, r'.Timestamp ≤ r.Timestamp) ∧
      attrOf (processRecords users (L.map some)) u k = some { Data := v, Timestamp := r.Timestamp } := by
  induction L using List.reverseRecOn with
  | nil => exact Or.inl ⟨rfl, hstart⟩
  | append_singleton l a ih =>
    right
    have hl : ∀ r ∈ l, IsAttrUpdate u k r := fun r hr => hall r (List.mem_append_left _ hr)
    obtain ⟨hv, ht, hu, hk⟩ := hall a (List.mem_append_right _ (List.mem_singleton_self a))
    obtain ⟨v, hv'⟩ := Option.ne_none_iff_exists'.mp hk
    have hstep : attrOf (processRecords users ((l ++ [a]).map some)) u k =
        some (mergeAttr (attrOf (processRecords users (l.map some)) u k) v a.Timestamp) := by
      rw [List.map_append, processRecords_append]
      show attrOf (processRecord (processRecords users (l.map some)) (some a)).1 u k = _
      rw [attrOf_processRecord_attributes _ a u k hv ht]
      simp [hu, hv']
    rcases ih hl with ⟨hnil, hnone⟩ | ⟨r, hr, w, hw, hmax, hres⟩
    · subst hnil
      refine ⟨a, by simp, v, hv', by simp, ?_⟩
      rw [hstep, hnone]
      rfl
    · by_cases hlt : a.Timestamp > r.Timestamp
      · refine ⟨a, by simp, v, hv', ?_, ?_⟩
        · intro r' hr'
          rcases List.mem_append.mp hr' with h | h
          · exact le_trans (hmax r' h) (le_of_lt hlt)
          · rw [List.mem_singleton.mp h]
        · rw [hstep, hres]
          simp [mergeAttr, hlt]
      · refine ⟨r, List.mem_append_left _ hr, w, hw, ?_, ?_⟩
        · intro r' hr'
          rcases List.mem_append.mp hr' with h | h
          · exact hmax r' h
          · rw [List.mem_singleton.mp h]
            exact not_lt.mp hlt
        · rw [hstep, hres]
          simp [mergeAttr, hlt]

/-- C4 (attribute monotonicity): fix a user `u` and a key `k`. For every non-empty
list `L` of valid attribute records for `u` that all contain `k` and have pairwise
distinct timestamps, and every permutation `L'` of `L`, applying `processRecord`
to the records of `L'` in that order, from a users map with no entry for `k`,
leaves `Attributes[k]` of `u` equal to (value, timestamp) of the record `rmax`
of `L` with the maximum timestamp. -/
theorem attribute_max_timestamp_wins (users : Users) (u k : String) (L L' : List Record)
    (rmax : Record) (hperm : L'.Perm L) (hne : L ≠ [])
    (hall : ∀ r ∈ L, IsAttrUpdate u k r)
    (hdist : L.Pairwise (fun a b => a.Timestamp ≠ b.Timestamp))
    (hstart : attrOf users u k = none)
    (hmem : rmax ∈ L) (hmax : ∀ r ∈ L, r.Timestamp ≤ rmax.Timestamp) :
    ∃ v, GoMap.get rmax.Data k = some v ∧
      attrOf (processRecords users (L'.map some)) u k =
        some { Data := v, Timestamp := rmax.Timestamp } := by
  have hall' : ∀ r ∈ L', IsAttrUpdate u k r := fun r hr => hall r (hperm.mem_iff.mp hr)
  rcases attr_run_invariant users u k hstart L' hall' with ⟨hnil, _⟩ | ⟨r, hr, v, hv, hrmax, hres⟩
  · subst hnil
    exact absurd (List.Perm.nil_eq hperm).symm hne
  · have hrL : r ∈ L := hperm.mem_iff.mp hr
    have hts : r.Timestamp = rmax.Timestamp :=
      le_antisymm (hmax r hrL) (hrmax rmax (hperm.mem_iff.mpr hmem))
    have hreq : r = rmax := by
      by_contra hneq
      exact (List.Pairwise.forall (fun _ _ h => Ne.symm h) hdist) hrL hmem hneq hts
    subst hreq
    exact ⟨v, hv, hres⟩

/-- Witness for C4: the updates `plan=pro` at time 5 and `plan=free` at time 20,
applied in the opposite order, leave `plan = (free, 20)`. -/
theorem attribute_max_timestamp_wins_witness :
    [samplePlanFree, samplePlanPro].Perm [samplePlanPro, samplePlanFree] ∧
    (∀ r ∈ [samplePlanPro, samplePlanFree], IsAttrUpdate "u1" "plan" r) ∧
    attrOf [] "u1" "plan" = none ∧
    ∃ v, GoMap.get samplePlanFree.Data "plan" = some v ∧
      attrOf (processRecords [] ([samplePlanFree, samplePlanPro].map some)) "u1" "plan" =
        some { Data := v, Timestamp := samplePlanFree.Timestamp } :=
  ⟨List.Perm.swap _ _ _, by decide, by decide,
    attribute_max_timestamp_wins [] "u1" "plan" [samplePlanPro, samplePlanFree]
      [samplePlanFree, samplePlanPro] samplePlanFree (List.Perm.swap _ _ _) (by simp)
      (by decide) (by decide) (by decide) (by decide) (by decide)⟩

/-! ## Shard routing -/

/-- C5 (evaluation at the failing input): for the 18-byte user ID
`user_1234567890abc` the 64-bit accumulator of `hash` wraps to a negative value,
the truncated remainder `hash(userID) % numShards` is `-13`, outside
`[0, numShards)`, and indexing the 32 shards with it is out of range. -/
theorem shardIndex_out_of_range :
    hash overflowingUserID = -649360796883159437 ∧
    shardIndex overflowingUserID = -13 ∧
    ¬ (0 ≤ shardIndex overflowingUserID ∧ shardIndex overflowingUserID < numShards) ∧
    indexShards initialShards (shardIndex overflowingUserID) = none := by
  decide

/-! ## The count invariant -/

theorem GoMap.keys_set {V : Type} (m : GoMap V) (k : String) (v : V) :
    GoMap.keys (GoMap.set m k v) =
      if k ∈ GoMap.keys m then GoMap.keys m else GoMap.keys m ++ [k] := by
  induction m with
  | nil => simp [GoMap.set, GoMap.keys]
  | cons p rest ih =>
    obtain ⟨k0, v0⟩ := p
    by_cases hk : k0 = k
    · simp [GoMap.set, GoMap.keys, hk]
    · have ih' : List.map Prod.fst (GoMap.set rest k v) =
          if k ∈ List.map Prod.fst rest then List.map Prod.fst rest
          else List.map Prod.fst rest ++ [k] := ih
      have hk' : ¬ k = k0 := fun h => hk h.symm
      simp only [GoMap.set, GoMap.keys, hk, if_false, List.map_cons, ih', List.mem_cons, hk',
        false_or]
      split <;> simp

theorem GoMap.keys_set_nodup {V : Type} (m : GoMap V) (k : String) (v : V)
    (h : (GoMap.keys m).Nodup) : (GoMap.keys (GoMap.set m k v)).Nodup := by
  rw [GoMap.keys_set]
  split
  · exact h
  · rename_i hk
    exact List.Nodup.append h (List.nodup_singleton k) (by simpa using hk)

theorem GoMap.sum_values_set (m : GoMap Int) (k : String) (v : Int) :
    (GoMap.values (GoMap.set m k v)).sum =
      (GoMap.values m).sum - (GoMap.get m k).getD 0 + v := by
  induction m with
  | nil => simp [GoMap.set, GoMap.get, GoMap.values]
  | cons p rest ih =>
    obtain ⟨k0, v0⟩ := p
    by_cases hk : k0 = k
    · simp [GoMap.set, GoMap.get, GoMap.values, hk]
      ring
    · have ih' : (List.map Prod.snd (GoMap.set rest k v)).sum =
          (List.map Prod.snd rest).sum - (GoMap.get rest k).getD 0 + v := ih
      simp only [GoMap.set, GoMap.get, GoMap.values, hk, if_false, List.map_cons,
        List.sum_cons, ih']
      ring

theorem GoMap.mem_values_of_get {V : Type} (m : GoMap V) (k : String) (v : V)
    (h : GoMap.get m k = some v) : v ∈ GoMap.values m := by
  induction m with
  | nil => simp [GoMap.get] at h
  | cons p rest ih =>
    obtain ⟨k0, v0⟩ := p
    by_cases hk : k0 = k
    · simp [GoMap.get, hk] at h
      simp [GoMap.values, h]
    · simp [GoMap.get, hk] at h
      have := ih h
      simp only [GoMap.values, List.map_cons, List.mem_cons]
      exact Or.inr this

theorem GoMap.mem_values_set {V : Type} (m : GoMap V) (k : String) (v c : V)
    (h : c ∈ GoMap.values (GoMap.set m k v)) : c = v ∨ c ∈ GoMap.values m := by
  induction m with
  | nil =>
    simp [GoMap.set, GoMap.values] at h
    exact Or.inl h
  | cons p rest ih =>
    obtain ⟨k0, v0⟩ := p
    by_cases hk : k0 = k
    · simp [GoMap.set, GoMap.values, hk] at h
      rcases h with h | ⟨a, h⟩
      · exact Or.inl h
      · exact Or.inr (by simp only [GoMap.values, List.map_cons, List.mem_cons]
                         exact Or.inr (List.mem_map.mpr ⟨(a, c), h, rfl⟩))
    · simp only [GoMap.set, hk, if_false, GoMap.values, List.map_cons, List.mem_cons] at h
      rcases h with h | h
      · exact Or.inr (by simp [GoMap.values, h])
      · rcases ih h with h' | h'
        · exact Or.inl h'
        · exact Or.inr (by simp only [GoMap.values, List.map_cons, List.mem_cons]
                           exact Or.inr h')

theorem CountInv_newUserData : CountInv newUserData := by
  simp [CountInv, newUserData, GoMap.values, GoMap.keys]

theorem CountInv_incrementEvent (ud : UserData) (name id : String) (h : CountInv ud) :
    CountInv (incrementEvent ud name id) := by
  obtain ⟨hsum, hpos, hnd1, hnd2⟩ := h
  unfold incrementEvent
  cases hg : GoMap.get ud.ProcessedEventIDs id with
  | some b => exact ⟨hsum, hpos, hnd1, hnd2⟩
  | none =>
    refine ⟨?_, ?_, GoMap.keys_set_nodup _ _ _ hnd1, GoMap.keys_set_nodup _ _ _ hnd2⟩
    · have hk : id ∉ GoMap.keys ud.ProcessedEventIDs :=
        fun hmem => (GoMap.mem_keys_iff _ _).mp hmem hg
      simp only [GoMap.sum_values_set, GoMap.keys_set, hk, if_false, List.length_append,
        List.length_singleton, hsum]
      push_cast
      ring
    · intro c hc
      rcases GoMap.mem_values_set _ _ _ _ hc with h1 | h1
      · subst h1
        cases he : GoMap.get ud.Events name with
        | none => simp
        | some c0 =>
          have := hpos c0 (GoMap.mem_values_of_get _ _ _ he)
          simp only [Option.getD_some]
          omega
      · exact hpos c h1

theorem CountInv_dispatch (ud : UserData) (r : Record) (h : CountInv ud) :
    CountInv (dispatch ud r) := by
  unfold dispatch
  split
  · exact CountInv_incrementEvent ud _ _ h
  · split
    · exact h
    · exact h

theorem CountInv_step (users : Users) (rec : Option Record)
    (h : ∀ u ud, GoMap.get users u = some ud → CountInv ud) :
    ∀ u ud, GoMap.get (processRecord users rec).1 u = some ud → CountInv ud := by
  cases rec with
  | none => exact h
  | some r =>
    by_cases hv : validate r = true
    · rw [processRecord_valid users r hv]
      intro u ud hud
      rw [GoMap.get_set] at hud
      split at hud
      · injection hud with hud
        subst hud
        apply CountInv_dispatch
        cases hg : GoMap.get users r.UserID with
        | none => exact CountInv_newUserData
        | some ud0 => exact h _ _ hg
      · exact h u ud hud
    · simp only [Bool.not_eq_true] at hv
      rw [processRecord_invalid users r hv]
      exact h

theorem CountInv_steps (recs : List (Option Record)) (users : Users)
    (h : ∀ u ud, GoMap.get users u = some ud → CountInv ud) :
    ∀ u ud, GoMap.get (processRecords users recs) u = some ud → CountInv ud := by
  induction recs generalizing users with
  | nil => exact h
  | cons rec rest ih =>
    rw [processRecords_cons]
    exact ih _ (CountInv_step users rec h)

/-- C6 (count invariant): in every users map reached from the empty map by any
finite sequence of `processRecord` calls (nil, invalid and valid records alike),
for every user the sum of all values in `Events` equals the number of IDs in
`ProcessedEventIDs`, and every counter in `Events` is at least 1 (both maps hold
each key once). -/
theorem count_invariant (recs : List (Option Record)) (u : String) (ud : UserData)
    (h : GoMap.get (processRecords [] recs) u = some ud) :
    (GoMap.values ud.Events).sum = ((GoMap.keys ud.ProcessedEventIDs).length : Int) ∧
    (∀ c ∈ GoMap.values ud.Events, (1 : Int) ≤ c) ∧
    (GoMap.keys ud.Events).Nodup ∧ (GoMap.keys ud.ProcessedEventIDs).Nodup :=
  CountInv_steps recs [] (fun u ud hud => by simp [GoMap.get] at hud) u ud h

/-- Witness for C6: after `login`, an attribute update, `logout`, a nil record and
a replay of `login`, user `u1` has counters `login = 1`, `logout = 1` and two
processed IDs. -/
theorem count_invariant_witness :
    GoMap.get (processRecords []
        [some sampleLogin, some samplePlanPro, some sampleLogout, none, some sampleLogin]) "u1"
      = some { Attributes := [("plan", { Data := "pro", Timestamp := 5 })],
               Events := [("login", 1), ("logout", 1)],
               ProcessedEventIDs := [("1", true), ("3", true)] } ∧
    (GoMap.values [("login", (1 : Int)), ("logout", 1)]).sum
      = ((GoMap.keys [("1", true), ("3", true)]).length : Int) :=
  ⟨by decide,
    (count_invariant
      [some sampleLogin, some samplePlanPro, some sampleLogout, none, some sampleLogin] "u1"
      { Attributes := [("plan", { Data := "pro", Timestamp := 5 })],
        Events := [("login", 1), ("logout", 1)],
        ProcessedEventIDs := [("1", true), ("3", true)] } (by decide)).1⟩

/-! ## Order of application -/

theorem incrementEvent_attributes (ud : UserData) (n i : String) :
    (incrementEvent ud n i).Attributes = ud.Attributes := by
  unfold incrementEvent
  split <;> rfl

theorem incrementEvent_events_get (ud : UserData) (n i x : String) :
    GoMap.get (incrementEvent ud n i).Events x =
      if GoMap.get ud.ProcessedEventIDs i = none then
        (if x = n then some ((GoMap.get ud.Events n).getD 0 + 1) else GoMap.get ud.Events x)
      else GoMap.get ud.Events x := by
  unfold incrementEvent
  cases hg : GoMap.get ud.ProcessedEventIDs i with
  | none => simp [GoMap.get_set]
  | some b => simp

theorem incrementEvent_processed_get (ud : UserData) (n i y : String) :
    GoMap.get (incrementEvent ud n i).ProcessedEventIDs y =
      if GoMap.get ud.ProcessedEventIDs i = none then
        (if y = i then some true else GoMap.get ud.ProcessedEventIDs y)
      else GoMap.get ud.ProcessedEventIDs y := by
  unfold incrementEvent
  cases hg : GoMap.get ud.ProcessedEventIDs i with
  | none => simp [GoMap.get_set]
  | some b => simp

theorem UserData.Equiv_refl (a : UserData) : UserData.Equiv a a :=
  ⟨fun _ => rfl, fun _ => rfl, fun _ => rfl⟩

/-- Two event records commute on an aggregate unless they share the ID under
different names. -/
theorem incrementEvent_comm (ud : UserData) (n1 i1 n2 i2 : String)
    (h : i1 = i2 → n1 = n2) :
    UserData.Equiv (incrementEvent (incrementEvent ud n1 i1) n2 i2)
      (incrementEvent (incrementEvent ud n2 i2) n1 i1) := by
  by_cases hi : i1 = i2
  · have hn := h hi
    subst hi
    subst hn
    exact UserData.Equiv_refl _
  · have hi' : ¬ i2 = i1 := fun e => hi e.symm
    refine ⟨?_, ?_, ?_⟩
    · intro k
      simp only [incrementEvent_attributes]
    · intro x
      simp only [incrementEvent_events_get, incrementEvent_processed_get]
      by_cases h1 : GoMap.get ud.ProcessedEventIDs i1 = none <;>
      by_cases h2 : GoMap.get ud.ProcessedEventIDs i2 = none <;>
      by_cases hn : n1 = n2 <;>
      by_cases hx1 : x = n1 <;> by_cases hx2 : x = n2 <;>
      simp_all
    · intro y
      simp only [incrementEvent_processed_get]
      by_cases h1 : GoMap.get ud.ProcessedEventIDs i1 = none <;>
      by_cases h2 : GoMap.get ud.ProcessedEventIDs i2 = none <;>
      by_cases hy1 : y = i1 <;> by_cases hy2 : y = i2 <;>
      simp [h1, h2, hy1, hy2, hi, hi']

theorem dispatch_event (ud : UserData) (r : Record) (ht : r.Type_ = EVENT) :
    dispatch ud r = incrementEvent ud r.Name r.ID := by
  simp [dispatch, ht]

theorem dispatch_attributes (ud : UserData) (r : Record) (ht : r.Type_ = ATTRIBUTES) :
    dispatch ud r = processAttribute ud r := by
  simp [dispatch, ht, EVENT_ne_ATTRIBUTES]

theorem dispatch_other (ud : UserData) (r : Record) (h1 : r.Type_ ≠ EVENT)
    (h2 : r.Type_ ≠ ATTRIBUTES) : dispatch ud r = ud := by
  simp [dispatch, h1, h2]

theorem processAttribute_incrementEvent (ud : UserData) (r : Record) (n i : String) :
    processAttribute (incrementEvent ud n i) r = incrementEvent (processAttribute ud r) n i := by
  unfold incrementEvent
  cases hg : GoMap.get ud.ProcessedEventIDs i with
  | none => simp [processAttribute, hg]
  | some b => simp [processAttribute, hg]

theorem mergeAttr_comm (old : Option AttributeDataWithTimestamp) (v1 v2 : String)
    (t1 t2 : Int) (hne : t1 ≠ t2) :
    mergeAttr (some (mergeAttr old v1 t1)) v2 t2 = mergeAttr (some (mergeAttr old v2 t2)) v1 t1 := by
  cases old with
  | none =>
    rcases lt_or_gt_of_ne hne with h | h
    · have h' : ¬ t1 > t2 := not_lt.mpr (le_of_lt h)
      simp [mergeAttr, h, h']
    · have h' : ¬ t2 > t1 := not_lt.mpr (le_of_lt h)
      simp [mergeAttr, h, h']
  | some a =>
    simp only [mergeAttr]
    split_ifs <;> first | rfl | (exfalso; omega) | (simp_all; try omega)

theorem processAttribute_get (ud : UserData) (r : Record) (k : String) :
    GoMap.get (processAttribute ud r).Attributes k =
      match GoMap.get r.Data k with
      | none => GoMap.get ud.Attributes k
      | some v => some (mergeAttr (GoMap.get ud.Attributes k) v r.Timestamp) := by
  simp only [processAttribute, foldl_attributeStep_get]

theorem processAttribute_comm (ud : UserData) (r1 r2 : Record)
    (h : ∀ k, GoMap.get r1.Data k ≠ none → GoMap.get r2.Data k ≠ none →
      r1.Timestamp ≠ r2.Timestamp) :
    UserData.Equiv (processAttribute (processAttribute ud r1) r2)
      (processAttribute (processAttribute ud r2) r1) := by
  refine ⟨?_, fun _ => rfl, fun _ => rfl⟩
  intro k
  simp only [processAttribute_get]
  cases h1 : GoMap.get r1.Data k with
  | none =>
    cases h2 : GoMap.get r2.Data k <;> simp
  | some v1 =>
    cases h2 : GoMap.get r2.Data k with
    | none => simp
    | some v2 =>
      have hne := h k (by simp [h1]) (by simp [h2])
      simp [mergeAttr_comm _ v1 v2 _ _ hne]

/-- The type switch of two records for the same user commutes on an aggregate,
outside the attribute tie case and the event ID clash. -/
theorem dispatch_comm (ud : UserData) (r1 r2 : Record) (hu : r1.UserID = r2.UserID)
    (hnotie : ¬ AttrTie r1 r2) (hnoclash : ¬ EventIDClash r1 r2) :
    UserData.Equiv (dispatch (dispatch ud r1) r2) (dispatch (dispatch ud r2) r1) := by
  by_cases e1 : r1.Type_ = EVENT
  · by_cases e2 : r2.Type_ = EVENT
    · simp only [dispatch_event _ _ e1, dispatch_event _ _ e2]
      apply incrementEvent_comm
      intro hid
      by_contra hn
      exact hnoclash ⟨e1, e2, hu, hid, hn⟩
    · by_cases a2 : r2.Type_ = ATTRIBUTES
      · simp only [dispatch_event _ _ e1, dispatch_attributes _ _ a2,
          processAttribute_incrementEvent]
        exact UserData.Equiv_refl _
      · simp only [dispatch_other _ _ e2 a2]
        exact UserData.Equiv_refl _
  · by_cases a1 : r1.Type_ = ATTRIBUTES
    · by_cases e2 : r2.Type_ = EVENT
      · simp only [dispatch_event _ _ e2, dispatch_attributes _ _ a1,
          processAttribute_incrementEvent]
        exact UserData.Equiv_refl _
      · by_cases a2 : r2.Type_ = ATTRIBUTES
        · simp only [dispatch_attributes _ _ a1, dispatch_attributes _ _ a2]
          apply processAttribute_comm
          intro k hk1 hk2 hts
          exact hnotie ⟨a1, a2, hu, hts, k, hk1, hk2⟩
        · simp only [dispatch_other _ _ e2 a2]
          exact UserData.Equiv_refl _
    · simp only [dispatch_other _ _ e1 a1]
      exact UserData.Equiv_refl _

theorem Users.Equiv_of_get (m1 m2 : Users)
    (h : ∀ u, GoMap.get m1 u = GoMap.get m2 u ∨
      ∃ a b, GoMap.get m1 u = some a ∧ GoMap.get m2 u = some b ∧ UserData.Equiv a b) :
    Users.Equiv m1 m2 := by
  intro u
  rcases h u with he | ⟨a, b, ha, hb, hab⟩
  · rw [he]
    cases GoMap.get m2 u with
    | none => trivial
    | some b => exact UserData.Equiv_refl b
  · rw [ha, hb]
    exact hab

/-- C7 (order-insensitivity, amended): for every users map and every two valid
records `r1` and `r2`, applying `r1` then `r2` gives the same users map as applying
`r2` then `r1`, except in the tie case (attribute records for the same user sharing
a key with equal timestamps) and except when `r1` and `r2` are event records for
the same user with the same ID and different names. -/
theorem processRecord_commute (users : Users) (r1 r2 : Record)
    (hv1 : validate r1 = true) (hv2 : validate r2 = true)
    (hnotie : ¬ AttrTie r1 r2) (hnoclash : ¬ EventIDClash r1 r2) :
    Users.Equiv (processRecords users [some r1, some r2])
      (processRecords users [some r2, some r1]) := by
  have e12 : processRecords users [some r1, some r2] =
      (processRecord (processRecord users (some r1)).1 (some r2)).1 := rfl
  have e21 : processRecords users [some r2, some r1] =
      (processRecord (processRecord users (some r2)).1 (some r1)).1 := rfl
  rw [e12, e21, processRecord_valid _ r2 hv2, processRecord_valid _ r1 hv1,
    processRecord_valid _ r1 hv1, processRecord_valid _ r2 hv2]
  apply Users.Equiv_of_get
  intro u
  by_cases hu : r1.UserID = r2.UserID
  · have hnotie' : ¬ AttrTie r2 r1 := fun ⟨a, b, c, d, k, hk1, hk2⟩ =>
      hnotie ⟨b, a, c.symm, d.symm, k, hk2, hk1⟩
    rw [← hu]
    simp only [GoMap.get_set_self, Option.getD_some, GoMap.set_set]
    by_cases huu : u = r1.UserID
    · right
      subst huu
      exact ⟨_, _, GoMap.get_set_self _ _ _, GoMap.get_set_self _ _ _,
        dispatch_comm _ r1 r2 hu hnotie hnoclash⟩
    · left
      rw [GoMap.get_set_ne _ _ _ _ huu, GoMap.get_set_ne _ _ _ _ huu]
  · left
    have hu' : ¬ r2.UserID = r1.UserID := fun e => hu e.symm
    rw [GoMap.get_set_ne users r1.UserID r2.UserID _ hu',
      GoMap.get_set_ne users r2.UserID r1.UserID _ hu]
    simp only [GoMap.get_set]
    by_cases h1 : u = r1.UserID
    · subst h1
      simp [hu]
    · by_cases h2 : u = r2.UserID
      · subst h2
        simp [hu']
      · simp [h1, h2]

/-- Witness for C7: the event `login` and the attribute update `plan=free` for
`u1`, applied to the empty users map in either order. -/
theorem processRecord_commute_witness :
    validate sampleLogin = true ∧ validate samplePlanFree = true ∧
    ¬ AttrTie sampleLogin samplePlanFree ∧ ¬ EventIDClash sampleLogin samplePlanFree ∧
    Users.Equiv (processRecords [] [some sampleLogin, some samplePlanFree])
      (processRecords [] [some samplePlanFree, some sampleLogin]) :=
  ⟨by decide, by decide, fun h => absurd h.1 (by decide), fun h => absurd h.2.1 (by decide),
    processRecord_commute [] sampleLogin samplePlanFree (by decide) (by decide)
      (fun h => absurd h.1 (by decide)) (fun h => absurd h.2.1 (by decide))⟩

/-- C7 (counterexample to the claim as stated): `login` and `logout` events for
`u1` that share ID `1` are valid and are not the attribute tie case, yet applying
them in the two orders gives different users maps: `Events = {login: 1}` in one
order and `{logout: 1}` in the other. -/
theorem processRecord_commute_counterexample :
    validate sampleLogin = true ∧ validate sampleLogoutSameID = true ∧
    ¬ AttrTie sampleLogin sampleLogoutSameID ∧
    ¬ Users.Equiv (processRecords [] [some sampleLogin, some sampleLogoutSameID])
      (processRecords [] [some sampleLogoutSameID, some sampleLogin]) := by
  refine ⟨by decide, by decide, fun h => absurd h.1 (by decide), ?_⟩
  intro h
  have h1 := h "u1"
  have e1 : GoMap.get (processRecords [] [some sampleLogin, some sampleLogoutSameID]) "u1" =
      some { Attributes := [], Events := [("login", 1)], ProcessedEventIDs := [("1", true)] } := by
    decide
  have e2 : GoMap.get (processRecords [] [some sampleLogoutSameID, some sampleLogin]) "u1" =
      some { Attributes := [], Events := [("logout", 1)], ProcessedEventIDs := [("1", true)] } := by
    decide
  rw [e1, e2] at h1
  have h2 := h1.2.1 "login"
  exact absurd h2 (by decide)

/-! ## Ties -/

/-- C8 (tie policy): when `Attributes[k]` of user `u` already holds an entry `a`,
applying a valid attribute record for `u` that contains `k` and whose timestamp is
at most `a.Timestamp` leaves `Attributes[k] = a`; and of two valid attribute
records for `u` with equal timestamps that both contain `k`, applied one after the
other to a state with no entry for `k`, the value of the first one is stored. -/
theorem tie_first_applied_wins :
    (∀ (users : Users) (r : Record) (u k : String) (a : AttributeDataWithTimestamp),
      IsAttrUpdate u k r → attrOf users u k = some a → r.Timestamp ≤ a.Timestamp →
      attrOf (processRecord users (some r)).1 u k = some a) ∧
    (∀ (users : Users) (r1 r2 : Record) (u k v1 : String),
      IsAttrUpdate u k r1 → IsAttrUpdate u k r2 → r1.Timestamp = r2.Timestamp →
      attrOf users u k = none → GoMap.get r1.Data k = some v1 →
      attrOf (processRecords users [some r1, some r2]) u k =
        some { Data := v1, Timestamp := r1.Timestamp }) := by
  have part1 : ∀ (users : Users) (r : Record) (u k : String) (a : AttributeDataWithTimestamp),
      IsAttrUpdate u k r → attrOf users u k = some a → r.Timestamp ≤ a.Timestamp →
      attrOf (processRecord users (some r)).1 u k = some a := by
    intro users r u k a ⟨hv, ht, hu, hk⟩ ha hle
    obtain ⟨v, hv'⟩ := Option.ne_none_iff_exists'.mp hk
    rw [attrOf_processRecord_attributes users r u k hv ht, ha]
    have hnlt : ¬ r.Timestamp > a.Timestamp := not_lt.mpr hle
    simp [hu, hv', mergeAttr, hnlt]
  refine ⟨part1, ?_⟩
  intro users r1 r2 u k v1 h1 h2 hts hnone hv1
  obtain ⟨hv, ht, hu, _⟩ := h1
  have hfirst : attrOf (processRecord users (some r1)).1 u k =
      some { Data := v1, Timestamp := r1.Timestamp } := by
    rw [attrOf_processRecord_attributes users r1 u k hv ht, hnone]
    simp [hu, hv1, mergeAttr]
  show attrOf (processRecord (processRecord users (some r1)).1 (some r2)).1 u k = _
  exact part1 _ r2 u k _ h2 hfirst (le_of_eq hts.symm)

/-- Witness for C8: with `plan = (pro, 5)` stored for `u1`, the update `plan=trial`
at time 5 is ignored; and from the empty map `plan=pro` then `plan=trial`, both at
time 5, leaves `pro`. -/
theorem tie_first_applied_wins_witness :
    IsAttrUpdate "u1" "plan" samplePlanPro ∧ IsAttrUpdate "u1" "plan" samplePlanTrial ∧
    samplePlanPro.Timestamp = samplePlanTrial.Timestamp ∧
    attrOf (processRecord (processRecords [] [some samplePlanPro]) (some samplePlanTrial)).1
      "u1" "plan" = some { Data := "pro", Timestamp := 5 } ∧
    attrOf (processRecords [] [some samplePlanPro, some samplePlanTrial]) "u1" "plan" =
      some { Data := "pro", Timestamp := samplePlanPro.Timestamp } :=
  ⟨by decide, by decide, by decide,
    tie_first_applied_wins.1 (processRecords [] [some samplePlanPro]) samplePlanTrial "u1" "plan"
      { Data := "pro", Timestamp := 5 } (by decide) (by decide) (by decide),
    tie_first_applied_wins.2 [] samplePlanPro samplePlanTrial "u1" "plan" "pro"
      (by decide) (by decide) (by decide) (by decide) (by decide)⟩

/-! ## Records of other types and the set of users -/

/-- C9 (amended): for every users map and every valid record whose type is neither
`event` nor `attributes`, `processRecord` leaves the entry of every other user ID as
it was; if the record's user is already in the map the map is unchanged, and
otherwise the record's user is added with empty `Attributes`, `Events` and
`ProcessedEventIDs`. -/
theorem other_type_only_creates_user (users : Users) (r : Record)
    (hv : validate r = true) (he : r.Type_ ≠ EVENT) (ha : r.Type_ ≠ ATTRIBUTES) :
    (∀ u, u ≠ r.UserID → GoMap.get (processRecord users (some r)).1 u = GoMap.get users u) ∧
    (GoMap.get users r.UserID ≠ none → (processRecord users (some r)).1 = users) ∧
    (GoMap.get users r.UserID = none →
      GoMap.get (processRecord users (some r)).1 r.UserID = some newUserData) := by
  rw [processRecord_valid users r hv, dispatch_other _ r he ha]
  refine ⟨fun u hu => GoMap.get_set_ne _ _ _ _ hu, ?_, ?_⟩
  · intro hne
    obtain ⟨ud, hud⟩ := Option.ne_none_iff_exists'.mp hne
    apply GoMap.set_eq_self
    rw [hud]
    rfl
  · intro hnone
    rw [GoMap.get_set_self, hnone]
    rfl

/-- Witness for C9: the `login`-typed record of the test, applied to the empty map
and to the map that already holds `user1`. -/
theorem other_type_only_creates_user_witness :
    validate testLogin = true ∧ testLogin.Type_ ≠ EVENT ∧ testLogin.Type_ ≠ ATTRIBUTES ∧
    GoMap.get (processRecord [] (some testLogin)).1 testLogin.UserID = some newUserData :=
  ⟨by decide, by decide, by decide,
    (other_type_only_creates_user [] testLogin (by decide) (by decide) (by decide)).2.2
      (by decide)⟩

/-- C9 (counterexample to the claim as stated): the valid record of type `login`
for `user1`, applied to the empty users map, adds the user ID `user1`, so the map
after the call does not hold the same user IDs as before. -/
theorem other_type_counterexample :
    validate testLogin = true ∧ testLogin.Type_ ≠ EVENT ∧ testLogin.Type_ ≠ ATTRIBUTES ∧
    GoMap.keys (processRecord [] (some testLogin)).1 = ["user1"] ∧
    ¬ Users.Equiv (processRecord [] (some testLogin)).1 [] := by
  refine ⟨by decide, by decide, by decide, by decide, ?_⟩
  intro h
  have h1 := h "user1"
  have e1 : GoMap.get (processRecord [] (some testLogin)).1 "user1" = some newUserData := by
    decide
  have e2 : GoMap.get ([] : Users) "user1" = none := rfl
  rw [e1, e2] at h1
  exact h1

theorem keys_processRecord (users : Users) (rec : Option Record) (u : String) :
    u ∈ GoMap.keys (processRecord users rec).1 ↔
      u ∈ GoMap.keys users ∨ ∃ r, rec = some r ∧ validate r = true ∧ r.UserID = u := by
  cases rec with
  | none => simp [processRecord]
  | some r =>
    by_cases hv : validate r = true
    · rw [processRecord_valid users r hv, GoMap.keys_set]
      by_cases hu : r.UserID = u
      · subst hu
        split <;> simp_all
      · have hu' : ¬ u = r.UserID := fun e => hu e.symm
        split <;> simp [hv, hu, hu']
    · simp only [Bool.not_eq_true] at hv
      simp [processRecord_invalid users r hv, hv]

theorem keys_processRecords (recs : List (Option Record)) (users : Users) (u : String) :
    u ∈ GoMap.keys (processRecords users recs) ↔
      u ∈ GoMap.keys users ∨ ∃ r, some r ∈ recs ∧ validate r = true ∧ r.UserID = u := by
  induction recs generalizing users with
  | nil => simp [processRecords]
  | cons rec rest ih =>
    rw [processRecords_cons, ih, keys_processRecord]
    constructor
    · rintro ((h | ⟨r, hr, hv, hu⟩) | ⟨r, hr, hv, hu⟩)
      · exact Or.inl h
      · exact Or.inr ⟨r, by simp [hr], hv, hu⟩
      · exact Or.inr ⟨r, List.mem_cons_of_mem _ hr, hv, hu⟩
    · rintro (h | ⟨r, hr, hv, hu⟩)
      · exact Or.inl (Or.inl h)
      · rcases List.mem_cons.mp hr with h | h
        · exact Or.inl (Or.inr ⟨r, h.symm, hv, hu⟩)
        · exact Or.inr ⟨r, h, hv, hu⟩

theorem keys_nodup_processRecords (recs : List (Option Record)) (users : Users)
    (h : (GoMap.keys users).Nodup) : (GoMap.keys (processRecords users recs)).Nodup := by
  induction recs generalizing users with
  | nil => exact h
  | cons rec rest ih =>
    rw [processRecords_cons]
    apply ih
    cases rec with
    | none => exact h
    | some r =>
      by_cases hv : validate r = true
      · rw [processRecord_valid users r hv]
        exact GoMap.keys_set_nodup _ _ _ h
      · simp only [Bool.not_eq_true] at hv
        rw [processRecord_invalid users r hv]
        exact h

/-- C10: for every finite sequence of records applied one after another from the
empty users map, a user ID is a key of the resulting map exactly when it is the
`UserID` of a non-nil record of the sequence that passes `validate` (whatever its
type), each key is held once, and no call of `processRecord` removes a key; on the
two records of the test (types `login` and `logout`) the keys are `user1` and
`user2`. -/
theorem keys_are_valid_user_ids :
    (∀ (recs : List (Option Record)) (u : String),
      u ∈ GoMap.keys (processRecords [] recs) ↔
        ∃ r, some r ∈ recs ∧ validate r = true ∧ r.UserID = u) ∧
    (∀ recs : List (Option Record), (GoMap.keys (processRecords [] recs)).Nodup) ∧
    (∀ (users : Users) (rec : Option Record) (u : String),
      u ∈ GoMap.keys users → u ∈ GoMap.keys (processRecord users rec).1) ∧
    GoMap.keys (processRecords [] [some testLogin, some testLogout]) = ["user1", "user2"] := by
  refine ⟨?_, ?_, ?_, by decide⟩
  · intro recs u
    rw [keys_processRecords]
    simp [GoMap.keys]
  · intro recs
    exact keys_nodup_processRecords recs [] (by simp [GoMap.keys])
  · intro users rec u hu
    exact (keys_processRecord users rec u).mpr (Or.inl hu)

theorem attrOf_set_same_attributes (users : Users) (uid : String) (ud : UserData) (u k : String)
    (h : ud.Attributes = ((GoMap.get users uid).getD newUserData).Attributes) :
    attrOf (GoMap.set users uid ud) u k = attrOf users u k := by
  unfold attrOf
  by_cases hu : u = uid
  · subst hu
    rw [GoMap.get_set_self, Option.some_bind, h]
    cases hg : GoMap.get users u with
    | none => simp [newUserData, GoMap.get]
    | some ud0 => simp
  · rw [GoMap.get_set_ne _ _ _ _ hu]

/-- A record that is not a valid attribute record for `u` containing `k` leaves the
entry stored for `(u, k)` as it was. -/
theorem attrOf_processRecord_of_not_update (users : Users) (rec : Option Record) (u k : String)
    (h : ∀ r, rec = some r → ¬ IsAttrUpdate u k r) :
    attrOf (processRecord users rec).1 u k = attrOf users u k := by
  cases rec with
  | none => rfl
  | some r =>
    by_cases hv : validate r = true
    · by_cases ha : r.Type_ = ATTRIBUTES
      · rw [attrOf_processRecord_attributes users r u k hv ha]
        by_cases hu : u = r.UserID
        · cases hd : GoMap.get r.Data k with
          | none => simp
          | some v =>
            exact absurd ⟨hv, ha, hu.symm, by simp [hd]⟩ (h r rfl)
        · simp [hu]
      · rw [processRecord_valid users r hv]
        apply attrOf_set_same_attributes
        by_cases he : r.Type_ = EVENT
        · rw [dispatch_event _ _ he, incrementEvent_attributes]
        · rw [dispatch_other _ _ he ha]
    · simp only [Bool.not_eq_true] at hv
      rw [processRecord_invalid users r hv]

/-- A valid attribute record for `u` containing `k` merges its value into the entry
stored for `(u, k)`. -/
theorem attrOf_processRecord_of_update (users : Users) (r : Record) (u k v : String)
    (h : IsAttrUpdate u k r) (hv : GoMap.get r.Data k = some v) :
    attrOf (processRecord users (some r)).1 u k =
      some (mergeAttr (attrOf users u k) v r.Timestamp) := by
  obtain ⟨hval, ht, hu, _⟩ := h
  rw [attrOf_processRecord_attributes users r u k hval ht]
  simp [hu, hv]

/-- The invariant behind C14, for the state reached from `users0` without an entry
for `(u, k)`. -/
theorem attr_timestamp_invariant (users0 : Users) (u k : String)
    (hstart : attrOf users0 u k = none) (recs : List (Option Record)) :
    match attrOf (processRecords users0 recs) u k with
    | none => ∀ r, some r ∈ recs → ¬ IsAttrUpdate u k r
    | some a =>
      (∃ r, some r ∈ recs ∧ IsAttrUpdate u k r ∧ r.Timestamp = a.Timestamp) ∧
      ∀ r, some r ∈ recs → IsAttrUpdate u k r → r.Timestamp ≤ a.Timestamp := by
  induction recs using List.reverseRecOn with
  | nil =>
    show match attrOf users0 u k with
      | none => _
      | some a => _
    rw [hstart]
    intro r hr
    simp at hr
  | append_singleton l rec ih =>
    have hstep : processRecords users0 (l ++ [rec]) =
        (processRecord (processRecords users0 l) rec).1 := by
      rw [processRecords_append]
      rfl
    rw [hstep]
    by_cases hup : ∃ r, rec = some r ∧ IsAttrUpdate u k r
    · obtain ⟨r, hrec, hr⟩ := hup
      subst hrec
      obtain ⟨v, hv⟩ := Option.ne_none_iff_exists'.mp hr.2.2.2
      rw [attrOf_processRecord_of_update _ r u k v hr hv]
      cases hold : attrOf (processRecords users0 l) u k with
      | none =>
        rw [hold] at ih
        refine ⟨⟨r, by simp, hr, rfl⟩, ?_⟩
        intro r' hr' hup'
        rcases List.mem_append.mp hr' with h | h
        · exact absurd hup' (ih r' h)
        · simp at h
          subst h
          exact le_refl _
      | some a0 =>
        rw [hold] at ih
        obtain ⟨⟨r0, hr0, hup0, hts0⟩, hmax⟩ := ih
        by_cases hlt : r.Timestamp > a0.Timestamp
        · have e : mergeAttr (some a0) v r.Timestamp = { Data := v, Timestamp := r.Timestamp } := by
            simp [mergeAttr, hlt]
          rw [e]
          refine ⟨⟨r, by simp, hr, rfl⟩, ?_⟩
          intro r' hr' hup'
          rcases List.mem_append.mp hr' with h | h
          · exact le_trans (hmax r' h hup') (le_of_lt hlt)
          · simp at h
            subst h
            exact le_refl _
        · have e : mergeAttr (some a0) v r.Timestamp = a0 := by
            simp [mergeAttr, hlt]
          rw [e]
          refine ⟨⟨r0, List.mem_append_left _ hr0, hup0, hts0⟩, ?_⟩
          intro r' hr' hup'
          rcases List.mem_append.mp hr' with h | h
          · exact hmax r' h hup'
          · simp at h
            subst h
            exact not_lt.mp hlt
    · have hnot : ∀ r, rec = some r → ¬ IsAttrUpdate u k r := fun r hr hup' => hup ⟨r, hr, hup'⟩
      rw [attrOf_processRecord_of_not_update _ rec u k hnot]
      cases hold : attrOf (processRecords users0 l) u k with
      | none =>
        rw [hold] at ih
        intro r' hr'
        rcases List.mem_append.mp hr' with h | h
        · exact ih r' h
        · simp at h
          exact hnot r' h.symm
      | some a0 =>
        rw [hold] at ih
        obtain ⟨⟨r0, hr0, hup0, hts0⟩, hmax⟩ := ih
        refine ⟨⟨r0, List.mem_append_left _ hr0, hup0, hts0⟩, ?_⟩
        intro r' hr' hup'
        rcases List.mem_append.mp hr' with h | h
        · exact hmax r' h hup'
        · simp at h
          exact absurd hup' (hnot r' h.symm)

theorem attrOf_timestamp_mono (users : Users) (rec : Option Record) (u k : String)
    (a : AttributeDataWithTimestamp) (h : attrOf users u k = some a) :
    ∃ a', attrOf (processRecord users rec).1 u k = some a' ∧ a.Timestamp ≤ a'.Timestamp := by
  by_cases hup : ∃ r, rec = some r ∧ IsAttrUpdate u k r
  · obtain ⟨r, hrec, hr⟩ := hup
    subst hrec
    obtain ⟨v, hv⟩ := Option.ne_none_iff_exists'.mp hr.2.2.2
    rw [attrOf_processRecord_of_update _ r u k v hr hv, h]
    refine ⟨_, rfl, ?_⟩
    by_cases hlt : r.Timestamp > a.Timestamp
    · simp [mergeAttr, hlt]
      exact le_of_lt hlt
    · simp [mergeAttr, hlt]
  · have hnot : ∀ r, rec = some r → ¬ IsAttrUpdate u k r := fun r hr hup' => hup ⟨r, hr, hup'⟩
    rw [attrOf_processRecord_of_not_update _ rec u k hnot]
    exact ⟨a, h, le_refl _⟩

/-- C14 (attribute timestamp invariant): after any finite sequence of `processRecord`
calls from the empty users map, for every user `u` and key `k`: if no valid attribute
record for `u` containing `k` was applied there is no entry, and otherwise the stored
timestamp is the timestamp of such a record and is at least the timestamp of every
such record (it is their maximum, ties included); and for every users map a single
`processRecord` call never decreases a stored timestamp. -/
theorem attribute_timestamp_is_max :
    (∀ (recs : List (Option Record)) (u k : String),
      ((∀ r, some r ∈ recs → ¬ IsAttrUpdate u k r) →
        attrOf (processRecords [] recs) u k = none) ∧
      ((∃ r, some r ∈ recs ∧ IsAttrUpdate u k r) →
        ∃ a, attrOf (processRecords [] recs) u k = some a ∧
          (∃ r, some r ∈ recs ∧ IsAttrUpdate u k r ∧ r.Timestamp = a.Timestamp) ∧
          ∀ r, some r ∈ recs → IsAttrUpdate u k r → r.Timestamp ≤ a.Timestamp)) ∧
    (∀ (users : Users) (rec : Option Record) (u k : String) (a : AttributeDataWithTimestamp),
      attrOf users u k = some a →
      ∃ a', attrOf (processRecord users rec).1 u k = some a' ∧ a.Timestamp ≤ a'.Timestamp) := by
  refine ⟨?_, attrOf_timestamp_mono⟩
  intro recs u k
  have inv := attr_timestamp_invariant [] u k rfl recs
  cases hres : attrOf (processRecords [] recs) u k with
  | none =>
    rw [hres] at inv
    exact ⟨fun _ => rfl, fun ⟨r, hr, hup⟩ => absurd hup (inv r hr)⟩
  | some a =>
    rw [hres] at inv
    obtain ⟨⟨r0, hr0, hup0, hts0⟩, hmax⟩ := inv
    exact ⟨fun hno => absurd hup0 (hno r0 hr0), fun _ => ⟨a, rfl, ⟨r0, hr0, hup0, hts0⟩, hmax⟩⟩

/-- Witness for C14: `plan=free` at time 20, an event, `plan=pro` at time 5 and
`plan=trial` at time 5 for `u1`; the stored timestamp is 20. -/
theorem attribute_timestamp_is_max_witness :
    (∃ r, some r ∈ [some samplePlanFree, some sampleLogin, some samplePlanPro, some samplePlanTrial]
      ∧ IsAttrUpdate "u1" "plan" r) ∧
    attrOf (processRecords []
      [some samplePlanFree, some sampleLogin, some samplePlanPro, some samplePlanTrial])
      "u1" "plan" = some { Data := "free", Timestamp := 20 } ∧
    ∃ a, attrOf (processRecords []
        [some samplePlanFree, some sampleLogin, some samplePlanPro, some samplePlanTrial])
        "u1" "plan" = some a ∧
      (∃ r, some r ∈ [some samplePlanFree, some sampleLogin, some samplePlanPro,
          some samplePlanTrial] ∧ IsAttrUpdate "u1" "plan" r ∧ r.Timestamp = a.Timestamp) ∧
      ∀ r, some r ∈ [some samplePlanFree, some sampleLogin, some samplePlanPro,
          some samplePlanTrial] → IsAttrUpdate "u1" "plan" r → r.Timestamp ≤ a.Timestamp :=
  ⟨⟨samplePlanFree, by simp, by decide⟩, by decide,
    (attribute_timestamp_is_max.1
      [some samplePlanFree, some sampleLogin, some samplePlanPro, some samplePlanTrial]
      "u1" "plan").2 ⟨samplePlanFree, by simp, by decide⟩⟩

/-! ## Event records -/

theorem aggregateOf_processRecord_valid (users : Users) (r : Record) (hv : validate r = true) :
    GoMap.get (processRecord users (some r)).1 r.UserID =
        some (dispatch (aggregateOf users r.UserID) r) ∧
      aggregateOf (processRecord users (some r)).1 r.UserID =
        dispatch (aggregateOf users r.UserID) r := by
  rw [processRecord_valid users r hv]
  simp [aggregateOf, GoMap.get_set_self]

theorem get_processRecord_of_ne (users : Users) (r : Record) (u : String)
    (hu : u ≠ r.UserID) :
    GoMap.get (processRecord users (some r)).1 u = GoMap.get users u := by
  by_cases hv : validate r = true
  · rw [processRecord_valid users r hv, GoMap.get_set_ne _ _ _ _ hu]
  · simp only [Bool.not_eq_true] at hv
    rw [processRecord_invalid users r hv]

/-! ## Frame -/

/-- C17 (frame): for every users map and every record, `processRecord` changes at
most the entry of the record's user: a nil record changes nothing, and for a non-nil
record every other user ID has the same lookup (present or absent, same aggregate)
after the call as before. Moreover an attribute record leaves `Events` and
`ProcessedEventIDs` of its own user as they were, and an event record leaves
`Attributes` of its own user as it was (a user that did not exist counts as the
empty aggregate). -/
theorem processRecord_frame (users : Users) :
    (processRecord users none).1 = users ∧
    (∀ (r : Record) (u : String), u ≠ r.UserID →
      GoMap.get (processRecord users (some r)).1 u = GoMap.get users u) ∧
    (∀ r : Record, r.Type_ = ATTRIBUTES →
      (aggregateOf (processRecord users (some r)).1 r.UserID).Events =
        (aggregateOf users r.UserID).Events ∧
      (aggregateOf (processRecord users (some r)).1 r.UserID).ProcessedEventIDs =
        (aggregateOf users r.UserID).ProcessedEventIDs) ∧
    (∀ r : Record, r.Type_ = EVENT →
      (aggregateOf (processRecord users (some r)).1 r.UserID).Attributes =
        (aggregateOf users r.UserID).Attributes) := by
  refine ⟨rfl, fun r u hu => get_processRecord_of_ne users r u hu, ?_, ?_⟩
  · intro r ht
    by_cases hv : validate r = true
    · rw [(aggregateOf_processRecord_valid users r hv).2, dispatch_attributes _ _ ht]
      exact ⟨rfl, rfl⟩
    · simp only [Bool.not_eq_true] at hv
      rw [processRecord_invalid users r hv]
      exact ⟨rfl, rfl⟩
  · intro r ht
    by_cases hv : validate r = true
    · rw [(aggregateOf_processRecord_valid users r hv).2, dispatch_event _ _ ht,
        incrementEvent_attributes]
    · simp only [Bool.not_eq_true] at hv
      rw [processRecord_invalid users r hv]

/-! ## The hash of short strings -/

theorem bytes_lt (s : String) : ∀ b ∈ bytes s, b < 256 := by
  intro b hb
  unfold bytes at hb
  obtain ⟨x, _, hx⟩ := List.mem_map.mp hb
  rw [← hx]
  exact UInt8.toNat_lt_size x

theorem polyHash_append_singleton (p : List Nat) (b : Nat) :
    polyHash (p ++ [b]) = 31 * polyHash p + (b : Int) := by
  induction p with
  | nil => simp [polyHash]
  | cons a rest ih =>
    have e : polyHash (a :: rest ++ [b]) =
        (a : Int) * 31 ^ (rest ++ [b]).length + polyHash (rest ++ [b]) := rfl
    rw [e, ih, List.length_append, List.length_singleton]
    simp only [polyHash]
    ring

theorem polyHash_bound (bs : List Nat) (hb : ∀ b ∈ bs, b < 256) :
    0 ≤ polyHash bs ∧ 30 * polyHash bs + 255 ≤ 255 * 31 ^ bs.length := by
  induction bs using List.reverseRecOn with
  | nil => simp [polyHash]
  | append_singleton p b ih =>
    have hp : ∀ x ∈ p, x < 256 := fun x hx => hb x (List.mem_append_left _ hx)
    have hb' : b < 256 := hb b (List.mem_append_right _ (List.mem_singleton_self b))
    obtain ⟨h0, h1⟩ := ih hp
    rw [polyHash_append_singleton, List.length_append, List.length_singleton, pow_succ]
    have hb'' : (b : Int) < 256 := by exact_mod_cast hb'
    have hb0 : (0 : Int) ≤ (b : Int) := Int.ofNat_nonneg b
    constructor
    · omega
    · nlinarith

theorem polyHash_lt_of_short (bs : List Nat) (hb : ∀ b ∈ bs, b < 256) (hlen : bs.length ≤ 12) :
    0 ≤ polyHash bs ∧ polyHash bs < 2 ^ 63 := by
  obtain ⟨h0, h1⟩ := polyHash_bound bs hb
  refine ⟨h0, ?_⟩
  have hpow : (31 : Int) ^ bs.length ≤ 31 ^ 12 := pow_le_pow_right₀ (by norm_num) hlen
  have hnum : (255 : Int) * 31 ^ 12 < 30 * 2 ^ 63 := by norm_num
  nlinarith

theorem wrapInt_of_inRange (x : Int) (h0 : 0 ≤ x) (h1 : x < 2 ^ 63) : wrapInt x = x := by
  unfold wrapInt
  have e : (x + 2 ^ 63) % 2 ^ 64 = x + 2 ^ 63 :=
    Int.emod_eq_of_lt (by positivity) (by norm_num at h1 ⊢; omega)
  rw [e]
  ring

theorem hashLoop_append_singleton (h : Int) (p : List Nat) (b : Nat) :
    hashLoop h (p ++ [b]) = wrapInt (wrapInt (31 * hashLoop h p) + (b : Int)) := by
  simp [hashLoop, List.foldl_append]

theorem hashLoop_eq_polyHash (bs : List Nat) (hb : ∀ b ∈ bs, b < 256) (hlen : bs.length ≤ 12) :
    hashLoop 0 bs = polyHash bs := by
  induction bs using List.reverseRecOn with
  | nil => rfl
  | append_singleton p b ih =>
    have hp : ∀ x ∈ p, x < 256 := fun x hx => hb x (List.mem_append_left _ hx)
    have hlen' : p.length ≤ 12 := by
      rw [List.length_append, List.length_singleton] at hlen
      omega
    have hall := polyHash_lt_of_short (p ++ [b]) hb hlen
    rw [polyHash_append_singleton] at hall
    have hp0 := (polyHash_lt_of_short p hp hlen').1
    have hb0 : (0 : Int) ≤ (b : Int) := Int.ofNat_nonneg b
    rw [hashLoop_append_singleton, ih hp hlen', polyHash_append_singleton,
      wrapInt_of_inRange (31 * polyHash p) (by omega) (by omega),
      wrapInt_of_inRange _ hall.1 hall.2]

/-- C18: with `int` a 64-bit two's-complement integer, for every string `s` of at most
12 bytes no step of the accumulator of `hash` overflows (at every position the exact
product `31*h` and the exact sum `31*h + s[i]` lie in `[0, 2^63)`), `hash(s)` is the
exact polynomial sum of `s[i] * 31^(len(s)-1-i)`, it is non-negative, and so
`hash(s) % 32` lies in `[0, 32)`; the hash of the empty string is 0. -/
theorem hash_exact_of_short (s : String) (hlen : (bytes s).length ≤ 12) :
    (∀ (p : List Nat) (b : Nat), p ++ [b] <+: bytes s →
      0 ≤ 31 * hashLoop 0 p ∧ 31 * hashLoop 0 p < 2 ^ 63 ∧
      0 ≤ 31 * hashLoop 0 p + (b : Int) ∧ 31 * hashLoop 0 p + (b : Int) < 2 ^ 63) ∧
    hash s = polyHash (bytes s) ∧ 0 ≤ hash s ∧
    0 ≤ shardIndex s ∧ shardIndex s < numShards ∧
    hash "" = 0 := by
  have hb := bytes_lt s
  have hhash : hash s = polyHash (bytes s) := hashLoop_eq_polyHash (bytes s) hb hlen
  have hnn : 0 ≤ hash s := by
    rw [hhash]
    exact (polyHash_lt_of_short (bytes s) hb hlen).1
  refine ⟨?_, hhash, hnn, Int.tmod_nonneg _ hnn, Int.tmod_lt_of_pos _ (by decide), by decide⟩
  intro p b hpre
  have hsub : ∀ x ∈ p ++ [b], x < 256 := fun x hx => hb x (hpre.subset hx)
  have hlen1 : (p ++ [b]).length ≤ 12 := le_trans hpre.length_le hlen
  have hp : ∀ x ∈ p, x < 256 := fun x hx => hsub x (List.mem_append_left _ hx)
  have hlen' : p.length ≤ 12 := by
    rw [List.length_append, List.length_singleton] at hlen1
    omega
  have hall := polyHash_lt_of_short (p ++ [b]) hsub hlen1
  rw [polyHash_append_singleton] at hall
  have hp0 := (polyHash_lt_of_short p hp hlen').1
  have hb0 : (0 : Int) ≤ (b : Int) := Int.ofNat_nonneg b
  rw [hashLoop_eq_polyHash p hp hlen']
  refine ⟨by omega, by omega, hall.1, hall.2⟩

/-- Witness for C18: the 12-byte user ID `user_1234567`. -/
theorem hash_exact_of_short_witness :
    (bytes "user_1234567").length ≤ 12 ∧
    hash "user_1234567" = polyHash (bytes "user_1234567") ∧ 0 ≤ hash "user_1234567" ∧
    0 ≤ shardIndex "user_1234567" ∧ shardIndex "user_1234567" < numShards :=
  ⟨by decide, (hash_exact_of_short "user_1234567" (by decide)).2.1,
    (hash_exact_of_short "user_1234567" (by decide)).2.2.1,
    (hash_exact_of_short "user_1234567" (by decide)).2.2.2.1,
    (hash_exact_of_short "user_1234567" (by decide)).2.2.2.2.1⟩

/-! ## Output: sorting -/

theorem bytesLe_total (a b : List Nat) : bytesLe a b = true ∨ bytesLe b a = true := by
  induction a generalizing b with
  | nil => simp [bytesLe]
  | cons x xs ih =>
    cases b with
    | nil => simp [bytesLe]
    | cons y ys =>
      simp only [bytesLe, Bool.or_eq_true, Bool.and_eq_true, decide_eq_true_eq]
      rcases lt_trichotomy x y with h | h | h
      · exact Or.inl (Or.inl h)
      · rcases ih ys with h' | h'
        · exact Or.inl (Or.inr ⟨h, h'⟩)
        · exact Or.inr (Or.inr ⟨h.symm, h'⟩)
      · exact Or.inr (Or.inl h)

theorem bytesLe_trans (a b c : List Nat) (hab : bytesLe a b = true) (hbc : bytesLe b c = true) :
    bytesLe a c = true := by
  induction a generalizing b c with
  | nil => simp [bytesLe]
  | cons x xs ih =>
    cases b with
    | nil => simp [bytesLe] at hab
    | cons y ys =>
      cases c with
      | nil => simp [bytesLe] at hbc
      | cons z zs =>
        simp only [bytesLe, Bool.or_eq_true, Bool.and_eq_true, decide_eq_true_eq] at hab hbc ⊢
        rcases hab with h1 | ⟨h1, h1'⟩
        · rcases hbc with h2 | ⟨h2, _⟩
          · exact Or.inl (lt_trans h1 h2)
          · exact Or.inl (h2 ▸ h1)
        · rcases hbc with h2 | ⟨h2, h2'⟩
          · exact Or.inl (h1 ▸ h2)
          · exact Or.inr ⟨h1.trans h2, ih ys zs h1' h2'⟩

theorem strLe_total (a b : String) : strLe a b ∨ strLe b a := bytesLe_total _ _

theorem strLe_trans (a b c : String) (hab : strLe a b) (hbc : strLe b c) : strLe a c :=
  bytesLe_trans _ _ _ hab hbc

theorem sortStrings_perm (l : List String) : (sortStrings l).Perm l :=
  List.perm_insertionSort strLe l

theorem sortStrings_sorted (l : List String) : (sortStrings l).Sorted strLe := by
  haveI : IsTotal String strLe := ⟨strLe_total⟩
  haveI : IsTrans String strLe := ⟨strLe_trans⟩
  exact List.sorted_insertionSort strLe l

theorem sortStrings_strict (l : List String) (h : l.Nodup) :
    (sortStrings l).Pairwise strLt := by
  have hs : (sortStrings l).Pairwise strLe := sortStrings_sorted l
  have hn : (sortStrings l).Pairwise (fun a b => a ≠ b) :=
    (sortStrings_perm l).nodup_iff.mpr h
  exact hs.and hn

/-! ## The bytes of a string determine the string -/

theorem mask_facts_ofNat : ∀ n, n < 256 →
    ((UInt8.ofNat n) &&& 0x3f ||| 0x80).toNat = 0x80 + n % 64 ∧
    ((UInt8.ofNat n) &&& 0x1f ||| 0xc0).toNat = 0xC0 + n % 32 ∧
    ((UInt8.ofNat n) &&& 0x0f ||| 0xe0).toNat = 0xE0 + n % 16 ∧
    ((UInt8.ofNat n) &&& 0x07 ||| 0xf0).toNat = 0xF0 + n % 8 := by
  decide

theorem UInt8_ofNat_toNat (x : UInt8) : UInt8.ofNat x.toNat = x := by
  cases x with
  | mk bv => simp [UInt8.ofNat, UInt8.toNat]

theorem mask_facts (x : UInt8) :
    (x &&& 0x3f ||| 0x80).toNat = 0x80 + x.toNat % 64 ∧
    (x &&& 0x1f ||| 0xc0).toNat = 0xC0 + x.toNat % 32 ∧
    (x &&& 0x0f ||| 0xe0).toNat = 0xE0 + x.toNat % 16 ∧
    (x &&& 0x07 ||| 0xf0).toNat = 0xF0 + x.toNat % 8 := by
  have h := mask_facts_ofNat x.toNat (UInt8.toNat_lt_size x)
  rw [UInt8_ofNat_toNat] at h
  exact h

theorem toUInt8_toNat (v : UInt32) : v.toUInt8.toNat = v.toNat % 256 := by
  simp [UInt32.toUInt8, Nat.toUInt8, UInt8.ofNat, UInt8.toNat]

theorem shr6_toNat (v : UInt32) : (v >>> 6).toNat = v.toNat / 64 := by
  show (UInt32.shiftRight v 6).toNat = _
  unfold UInt32.shiftRight
  have e : (UInt32.mod 6 32).toBitVec.toNat = 6 := by decide
  simp [UInt32.toNat, Nat.shiftRight_eq_div_pow, e]

theorem shr12_toNat (v : UInt32) : (v >>> 12).toNat = v.toNat / 4096 := by
  show (UInt32.shiftRight v 12).toNat = _
  unfold UInt32.shiftRight
  have e : (UInt32.mod 12 32).toBitVec.toNat = 12 := by decide
  simp [UInt32.toNat, Nat.shiftRight_eq_div_pow, e]

theorem shr18_toNat (v : UInt32) : (v >>> 18).toNat = v.toNat / 262144 := by
  show (UInt32.shiftRight v 18).toNat = _
  unfold UInt32.shiftRight
  have e : (UInt32.mod 18 32).toBitVec.toNat = 18 := by decide
  simp [UInt32.toNat, Nat.shiftRight_eq_div_pow, e]

theorem UInt32_le_iff (v w : UInt32) : v ≤ w ↔ v.toNat ≤ w.toNat := Iff.rfl

/-- The bytes produced by the library encoder are those of the arithmetic form. -/
theorem utf8EncodeChar_toNat (c : Char) :
    (String.utf8EncodeChar c).map UInt8.toNat = utf8Nat c.val.toNat := by
  unfold String.utf8EncodeChar utf8Nat
  have h1 : (c.val ≤ 0x7f) ↔ c.val.toNat ≤ 0x7f := Iff.rfl
  have h2 : (c.val ≤ 0x7ff) ↔ c.val.toNat ≤ 0x7ff := Iff.rfl
  have h3 : (c.val ≤ 0xffff) ↔ c.val.toNat ≤ 0xffff := Iff.rfl
  simp only [h1, h2, h3]
  split
  · rename_i h
    simp only [List.map_cons, List.map_nil, toUInt8_toNat]
    simp only [List.cons.injEq, and_true]
    omega
  · split
    · simp only [List.map_cons, List.map_nil, (mask_facts _).1, (mask_facts _).2.1,
        toUInt8_toNat, shr6_toNat]
      simp only [List.cons.injEq, and_true]
      refine ⟨by omega, by omega⟩
    · split
      · simp only [List.map_cons, List.map_nil, (mask_facts _).1, (mask_facts _).2.2.1,
          toUInt8_toNat, shr6_toNat, shr12_toNat]
        simp only [List.cons.injEq, and_true]
        refine ⟨by omega, by omega, by omega⟩
      · simp only [List.map_cons, List.map_nil, (mask_facts _).1, (mask_facts _).2.2.2,
          toUInt8_toNat, shr6_toNat, shr12_toNat, shr18_toNat]
        simp only [List.cons.injEq, and_true]
        refine ⟨by omega, by omega, by omega, by omega⟩


theorem utf8Nat_append_inj (n m : Nat) (hn : n < 0x110000) (hm : m < 0x110000)
    (r s : List Nat) (h : utf8Nat n ++ r = utf8Nat m ++ s) : n = m ∧ r = s := by
  unfold utf8Nat at h
  split_ifs at h <;>
    simp only [List.cons_append, List.nil_append, List.cons.injEq] at h <;>
    first
      | (exfalso; omega)
      | exact ⟨by omega, by tauto⟩

theorem char_toNat_lt (c : Char) : c.val.toNat < 0x110000 := by
  rcases c.valid with h | ⟨_, h⟩
  · exact lt_trans h (by decide)
  · exact h

theorem char_eq_of_toNat (c d : Char) (h : c.val.toNat = d.val.toNat) : c = d := by
  apply Char.eq_of_val_eq
  cases hc : c.val with
  | mk bc =>
    cases hd : d.val with
    | mk bd =>
      rw [hc, hd] at h
      have : bc = bd := BitVec.eq_of_toNat_eq h
      rw [this]

theorem bytesOfChars_inj (a b : List Char)
    (h : (a.flatMap String.utf8EncodeChar).map UInt8.toNat =
      (b.flatMap String.utf8EncodeChar).map UInt8.toNat) : a = b := by
  induction a generalizing b with
  | nil =>
    cases b with
    | nil => rfl
    | cons d b' =>
      exfalso
      rw [List.flatMap_cons, List.map_append, utf8EncodeChar_toNat] at h
      have hl := congrArg List.length h
      unfold utf8Nat at hl
      simp only [List.flatMap_nil, List.map_nil, List.length_nil, List.length_append] at hl
      split_ifs at hl <;> simp at hl <;> omega
  | cons c a' ih =>
    cases b with
    | nil =>
      exfalso
      rw [List.flatMap_cons, List.map_append, utf8EncodeChar_toNat] at h
      have hl := congrArg List.length h
      unfold utf8Nat at hl
      simp only [List.flatMap_nil, List.map_nil, List.length_nil, List.length_append] at hl
      split_ifs at hl <;> simp at hl
    | cons d b' =>
      rw [List.flatMap_cons, List.flatMap_cons, List.map_append, List.map_append,
        utf8EncodeChar_toNat, utf8EncodeChar_toNat] at h
      obtain ⟨h1, h2⟩ := utf8Nat_append_inj _ _ (char_toNat_lt c) (char_toNat_lt d) _ _ h
      rw [char_eq_of_toNat c d h1, ih b' h2]

/-- Different strings have different byte sequences. -/
theorem bytes_injective (a b : String) (h : bytes a = bytes b) : a = b := by
  unfold bytes at h
  have := bytesOfChars_inj a.data b.data h
  cases a
  cases b
  simp_all

theorem bytesLe_antisymm (a b : List Nat) (hab : bytesLe a b = true) (hba : bytesLe b a = true) :
    a = b := by
  induction a generalizing b with
  | nil =>
    cases b with
    | nil => rfl
    | cons y ys => simp [bytesLe] at hba
  | cons x xs ih =>
    cases b with
    | nil => simp [bytesLe] at hab
    | cons y ys =>
      simp only [bytesLe, Bool.or_eq_true, Bool.and_eq_true, decide_eq_true_eq] at hab hba
      rcases hab with h1 | ⟨h1, h1'⟩
      · rcases hba with h2 | ⟨h2, _⟩
        · exact absurd h1 (not_lt.mpr (le_of_lt h2))
        · exact absurd h1 (by omega)
      · rcases hba with h2 | ⟨_, h2'⟩
        · exact absurd h2 (by omega)
        · rw [h1, ih ys h1' h2']

theorem bytesLe_refl (a : List Nat) : bytesLe a a = true := by
  rcases bytesLe_total a a with h | h <;> exact h

/-- The relation `strLt` is the strict part of the byte-wise order: `a < b` exactly when
`a <= b` and not `b <= a`. -/
theorem strLt_iff_not_ge (a b : String) : strLt a b ↔ strLe a b ∧ ¬ strLe b a := by
  constructor
  · rintro ⟨hle, hne⟩
    exact ⟨hle, fun hge => hne (bytes_injective a b (bytesLe_antisymm _ _ hle hge))⟩
  · rintro ⟨hle, hnge⟩
    refine ⟨hle, fun he => hnge ?_⟩
    rw [he]
    exact bytesLe_refl _

/-! ## Output: merging the shards -/

theorem mem_keys_set {V : Type} (m : GoMap V) (k : String) (v : V) (u : String) :
    u ∈ GoMap.keys (GoMap.set m k v) ↔ u ∈ GoMap.keys m ∨ u = k := by
  rw [GoMap.keys_set]
  split
  · rename_i hk
    constructor
    · exact Or.inl
    · rintro (h | h)
      · exact h
      · exact h ▸ hk
  · simp

theorem keys_foldl_set (entries : Users) (acc : Users) :
    ((GoMap.keys acc).Nodup →
      (GoMap.keys (entries.foldl (fun a p => GoMap.set a p.1 p.2) acc)).Nodup) ∧
    ∀ u, u ∈ GoMap.keys (entries.foldl (fun a p => GoMap.set a p.1 p.2) acc) ↔
      u ∈ GoMap.keys acc ∨ u ∈ GoMap.keys entries := by
  induction entries generalizing acc with
  | nil => simp [GoMap.keys]
  | cons p rest ih =>
    obtain ⟨ih1, ih2⟩ := ih (GoMap.set acc p.1 p.2)
    refine ⟨fun h => ih1 (GoMap.keys_set_nodup _ _ _ h), ?_⟩
    intro u
    rw [List.foldl_cons, ih2, mem_keys_set]
    simp only [GoMap.keys, List.map_cons, List.mem_cons]
    tauto

theorem keys_mergeShards_aux (shards : List Users) (acc : Users) :
    ((GoMap.keys acc).Nodup →
      (GoMap.keys (shards.foldl
        (fun allUsers shard => shard.foldl (fun a p => GoMap.set a p.1 p.2) allUsers) acc)).Nodup) ∧
    ∀ u, u ∈ GoMap.keys (shards.foldl
        (fun allUsers shard => shard.foldl (fun a p => GoMap.set a p.1 p.2) allUsers) acc) ↔
      u ∈ GoMap.keys acc ∨ ∃ shard ∈ shards, u ∈ GoMap.keys shard := by
  induction shards generalizing acc with
  | nil => simp
  | cons shard rest ih =>
    obtain ⟨ih1, ih2⟩ := ih (shard.foldl (fun a p => GoMap.set a p.1 p.2) acc)
    obtain ⟨k1, k2⟩ := keys_foldl_set shard acc
    refine ⟨fun h => ih1 (k1 h), ?_⟩
    intro u
    rw [List.foldl_cons, ih2, k2]
    simp only [List.mem_cons, exists_eq_or_imp]
    tauto

theorem keys_mergeShards (shards : List Users) :
    (GoMap.keys (mergeShards shards)).Nodup ∧
    ∀ u, u ∈ GoMap.keys (mergeShards shards) ↔ ∃ shard ∈ shards, u ∈ GoMap.keys shard := by
  obtain ⟨h1, h2⟩ := keys_mergeShards_aux shards []
  refine ⟨h1 (by simp [GoMap.keys]), ?_⟩
  intro u
  have := h2 u
  simpa [mergeShards, GoMap.keys] using this

/-! ## Output: the lines -/

theorem writeLines_of_keys (allUsers : Users) (ids : List String)
    (h : ∀ u ∈ ids, u ∈ GoMap.keys allUsers) :
    writeLines allUsers ids = some (ids.map (fun u => userLine u (aggregateOf allUsers u))) := by
  induction ids with
  | nil => rfl
  | cons u rest ih =>
    have hu := (GoMap.mem_keys_iff allUsers u).mp (h u (List.mem_cons_self _ _))
    obtain ⟨ud, hud⟩ := Option.ne_none_iff_exists'.mp hu
    have ih' := ih (fun x hx => h x (List.mem_cons_of_mem _ hx))
    simp [writeLines, hud, ih', aggregateOf]

theorem outputLines_eq (shards : List Users) :
    outputLines shards = some ((sortStrings (GoMap.keys (mergeShards shards))).map
      (fun u => userLine u (aggregateOf (mergeShards shards) u))) := by
  unfold outputLines
  exact writeLines_of_keys _ _ (fun u hu => (sortStrings_perm _).mem_iff.mp hu)

theorem userLine_prefix (u : String) (ud : UserData) : ∃ rest, userLine u ud = u ++ rest :=
  ⟨"," ++ Join (userParts ud) "," ++ "\n", by simp [userLine, String.append_assoc]⟩

/-- C11: for every list of shards (those with pairwise disjoint key sets included) the
pure part of `output` produces its lines without failing; there is a list `ids` of user
IDs, holding each user present in some shard exactly once and in strictly ascending
byte-wise lexicographic order (each ID is `<=` every later one, differs from it, and is
not `>=` it), such that the lines correspond one to one and in order to `ids` and each
line begins with its user's ID; when every shard is empty there are zero lines. -/
theorem output_one_sorted_line_per_user (shards : List Users) :
    (∃ ids lines, outputLines shards = some lines ∧
      List.Forall₂ (fun u line => ∃ rest, line = u ++ rest) ids lines ∧
      ids.Nodup ∧ (∀ u, u ∈ ids ↔ ∃ shard ∈ shards, u ∈ GoMap.keys shard) ∧
      ids.Pairwise (fun a b => strLt a b ∧ ¬ strLe b a)) ∧
    ((∀ shard ∈ shards, shard = []) → outputLines shards = some []) := by
  obtain ⟨hnd, hmem⟩ := keys_mergeShards shards
  have hperm := sortStrings_perm (GoMap.keys (mergeShards shards))
  constructor
  · refine ⟨sortStrings (GoMap.keys (mergeShards shards)), _, outputLines_eq shards, ?_,
      hperm.nodup_iff.mpr hnd, fun u => (hperm.mem_iff).trans (hmem u),
      (sortStrings_strict _ hnd).imp (fun h => ⟨h, ((strLt_iff_not_ge _ _).mp h).2⟩)⟩
    rw [List.forall₂_map_right_iff]
    exact List.forall₂_same.mpr (fun u _ => userLine_prefix u _)
  · intro hempty
    have hk : GoMap.keys (mergeShards shards) = [] := by
      apply List.eq_nil_iff_forall_not_mem.mpr
      intro u hu
      obtain ⟨shard, hs, hus⟩ := (hmem u).mp hu
      rw [hempty shard hs] at hus
      simp [GoMap.keys] at hus
    rw [outputLines_eq, hk]
    rfl


/-- C12 (amended): every line written by `output` is the line of a user `u` of the
merged map with its aggregate, and the line of a user is built as follows: with the
attribute names in ascending order and the event names in ascending order, the field
list is one field `name=value` per attribute followed by one field `name=count` (count
in decimal) per event; when the user has at least one field the line is the comma-join
of the user ID followed by the fields, and when the user has no attribute and no event
the line is the user ID followed by one comma (each line ends with a newline). -/
theorem line_is_userID_comma_joined_fields (shards : List Users) :
    (∀ lines, outputLines shards = some lines → ∀ line ∈ lines,
      ∃ u ud, GoMap.get (mergeShards shards) u = some ud ∧ line = userLine u ud) ∧
    (∀ (userID : String) (user : UserData), ∃ attrKeys eventKeys : List String,
      attrKeys.Perm (GoMap.keys user.Attributes) ∧ attrKeys.Sorted strLe ∧
      eventKeys.Perm (GoMap.keys user.Events) ∧ eventKeys.Sorted strLe ∧
      ∃ fields : List String,
        fields = attrKeys.map (fun k => k ++ "=" ++
            ((GoMap.get user.Attributes k).getD { Data := "", Timestamp := 0 }).Data)
          ++ eventKeys.map (fun k => k ++ "=" ++ formatInt ((GoMap.get user.Events k).getD 0)) ∧
        (fields ≠ [] → userLine userID user = Join (userID :: fields) "," ++ "\n") ∧
        (fields = [] → userLine userID user = userID ++ "," ++ "\n")) := by
  constructor
  · intro lines hl line hline
    rw [outputLines_eq] at hl
    injection hl with hl
    rw [← hl] at hline
    obtain ⟨u, hu, hline'⟩ := List.mem_map.mp hline
    have hu' : u ∈ GoMap.keys (mergeShards shards) := (sortStrings_perm _).mem_iff.mp hu
    obtain ⟨ud, hud⟩ :=
      Option.ne_none_iff_exists'.mp ((GoMap.mem_keys_iff _ u).mp hu')
    refine ⟨u, ud, hud, ?_⟩
    rw [← hline', aggregateOf, hud]
    rfl
  · intro userID user
    refine ⟨sortStrings (GoMap.keys user.Attributes), sortStrings (GoMap.keys user.Events),
      sortStrings_perm _, sortStrings_sorted _, sortStrings_perm _, sortStrings_sorted _,
      userParts user, rfl, ?_, ?_⟩
    · intro hne
      unfold userLine
      cases hf : userParts user with
      | nil => exact absurd hf hne
      | cons f fs => simp [Join, String.append_assoc]
    · intro he
      unfold userLine
      rw [he]
      simp [Join]

/-- C12 (counterexample to the claim as stated): the record of type `login` for
`user1` creates an aggregate with no attributes and no events; its field list is the
user ID alone, whose comma-join is `user1`, but `output` writes `user1,`. -/
theorem line_format_counterexample :
    GoMap.get (processRecords [] [some testLogin]) "user1" = some newUserData ∧
    userParts newUserData = [] ∧
    outputLines [processRecords [] [some testLogin]] = some ["user1,\n"] ∧
    Join ("user1" :: userParts newUserData) "," ++ "\n" = "user1\n" ∧
    userLine "user1" newUserData ≠ Join ("user1" :: userParts newUserData) "," ++ "\n" := by
  decide

/-- C13 (scenario): from the empty users map, the event `login` (ID 1, time 10), the
attribute record `plan=pro` (ID 2, time 5) and the attribute record `plan=free` (ID 2,
time 20) for `u1`, applied in this order, leave for `u1` `Events = {login: 1}` and
`Attributes = {plan: (free, 20)}`, and `output` renders exactly the one line
`u1,plan=free,login=1`; the same line results when the records go through the worker
loop into the 32 shards. -/
theorem scenario_u1 :
    processRecords [] scenarioRecords =
      [("u1", { Attributes := [("plan", { Data := "free", Timestamp := 20 })],
                Events := [("login", 1)],
                ProcessedEventIDs := [("1", true)] })] ∧
    outputLines [processRecords [] scenarioRecords] = some ["u1,plan=free,login=1\n"] ∧
    (runWorker initialShards scenarioRecords).bind outputLines =
      some ["u1,plan=free,login=1\n"] := by
  decide

/-! ## The wrapping counter -/

theorem wrapInt_of_int64 (x : Int) (h0 : -2 ^ 63 ≤ x) (h1 : x < 2 ^ 63) : wrapInt x = x := by
  unfold wrapInt
  have e : (x + 2 ^ 63) % 2 ^ 64 = x + 2 ^ 63 :=
    Int.emod_eq_of_lt (by norm_num at h0 ⊢; omega) (by norm_num at h1 ⊢; omega)
  rw [e]
  ring

theorem processRecord64_none (users : Users) : (processRecord64 users none).1 = users := rfl

theorem processRecord64_invalid (users : Users) (r : Record) (hv : validate r = false) :
    (processRecord64 users (some r)).1 = users := by
  simp [processRecord64, hv]

theorem processRecord64_valid (users : Users) (r : Record) (hv : validate r = true) :
    (processRecord64 users (some r)).1 =
      GoMap.set users r.UserID (dispatch64 (aggregateOf users r.UserID) r) := by
  unfold aggregateOf
  cases hg : GoMap.get users r.UserID with
  | none => simp [processRecord64, hv, hg, GoMap.set_set]
  | some ud => simp [processRecord64, hv, hg]

theorem aggregateOf_processRecord64_valid (users : Users) (r : Record)
    (hv : validate r = true) :
    GoMap.get (processRecord64 users (some r)).1 r.UserID =
        some (dispatch64 (aggregateOf users r.UserID) r) ∧
      aggregateOf (processRecord64 users (some r)).1 r.UserID =
        dispatch64 (aggregateOf users r.UserID) r := by
  rw [processRecord64_valid users r hv]
  simp [aggregateOf, GoMap.get_set_self]

theorem aggregateOf_processRecord64_of_ne (users : Users) (r : Record) (u : String)
    (hu : u ≠ r.UserID) :
    aggregateOf (processRecord64 users (some r)).1 u = aggregateOf users u := by
  unfold aggregateOf
  by_cases hv : validate r = true
  · rw [processRecord64_valid users r hv, GoMap.get_set_ne _ _ _ _ hu]
  · simp only [Bool.not_eq_true] at hv
    rw [processRecord64_invalid users r hv]

theorem dispatch64_event (ud : UserData) (r : Record) (ht : r.Type_ = EVENT) :
    dispatch64 ud r = incrementEvent64 ud r.Name r.ID := by
  simp [dispatch64, ht]

theorem dispatch64_of_not_event (ud : UserData) (r : Record) (ht : r.Type_ ≠ EVENT) :
    dispatch64 ud r = dispatch ud r := by
  simp [dispatch64, dispatch, ht]

/-- A record that is not an event record is processed alike with either counter. -/
theorem processRecord64_of_not_event (users : Users) (rec : Option Record)
    (h : ∀ r, rec = some r → r.Type_ ≠ EVENT) :
    processRecord64 users rec = processRecord users rec := by
  cases rec with
  | none => rfl
  | some r =>
    have ht := h r rfl
    unfold processRecord64 processRecord
    simp only [dispatch64_of_not_event _ r ht]

/-- The wrapping and the exact increment agree as long as the new counter value fits
in an `int`. -/
theorem incrementEvent64_eq (ud : UserData) (name id : String)
    (h0 : -2 ^ 63 ≤ (GoMap.get ud.Events name).getD 0 + 1)
    (h1 : (GoMap.get ud.Events name).getD 0 + 1 < 2 ^ 63) :
    incrementEvent64 ud name id = incrementEvent ud name id := by
  unfold incrementEvent64 incrementEvent
  rw [wrapInt_of_int64 _ h0 h1]

theorem incrementEvent64_attributes (ud : UserData) (n i : String) :
    (incrementEvent64 ud n i).Attributes = ud.Attributes := by
  unfold incrementEvent64
  split <;> rfl

theorem incrementEvent64_new (ud : UserData) (n i : String)
    (hnew : GoMap.get ud.ProcessedEventIDs i = none) :
    incrementEvent64 ud n i =
      { ud with
        Events := GoMap.set ud.Events n (wrapInt ((GoMap.get ud.Events n).getD 0 + 1))
        ProcessedEventIDs := GoMap.set ud.ProcessedEventIDs i true } := by
  simp [incrementEvent64, hnew]

theorem incrementEvent64_known (ud : UserData) (n i : String)
    (hid : GoMap.get ud.ProcessedEventIDs i ≠ none) : incrementEvent64 ud n i = ud := by
  unfold incrementEvent64
  cases hg : GoMap.get ud.ProcessedEventIDs i with
  | none => exact absurd hg hid
  | some b => rfl


/-! ## The exact counter is the 64-bit counter on every run that can happen -/

theorem GoMap.get_le_sum_values (m : GoMap Int) (k : String) (c : Int)
    (hpos : ∀ x ∈ GoMap.values m, (0 : Int) ≤ x) (h : GoMap.get m k = some c) :
    c ≤ (GoMap.values m).sum := by
  induction m with
  | nil => simp [GoMap.get] at h
  | cons p rest ih =>
    obtain ⟨k0, v0⟩ := p
    have hrest : ∀ x ∈ GoMap.values rest, (0 : Int) ≤ x := fun x hx =>
      hpos x (by simp only [GoMap.values, List.map_cons, List.mem_cons]; exact Or.inr hx)
    have hv0 : (0 : Int) ≤ v0 := hpos v0 (by simp [GoMap.values])
    have hsum : (0 : Int) ≤ (GoMap.values rest).sum := List.sum_nonneg hrest
    have e : (GoMap.values ((k0, v0) :: rest)).sum = v0 + (GoMap.values rest).sum := by
      simp [GoMap.values]
    rw [e]
    by_cases hk : k0 = k
    · simp [GoMap.get, hk] at h
      omega
    · simp [GoMap.get, hk] at h
      have := ih hrest h
      omega

/-- Under the count invariant a counter lies between 0 and the number of recorded IDs. -/
theorem counter_bounds_of_CountInv (ud : UserData) (name : String) (h : CountInv ud) :
    0 ≤ (GoMap.get ud.Events name).getD 0 ∧
    (GoMap.get ud.Events name).getD 0 ≤ ((GoMap.keys ud.ProcessedEventIDs).length : Int) := by
  obtain ⟨hsum, hpos, _, _⟩ := h
  have hpos0 : ∀ x ∈ GoMap.values ud.Events, (0 : Int) ≤ x := fun x hx =>
    le_trans (by decide) (hpos x hx)
  cases hg : GoMap.get ud.Events name with
  | none =>
    simp only [Option.getD_none]
    exact ⟨le_refl _, Int.ofNat_nonneg _⟩
  | some c =>
    simp only [Option.getD_some]
    refine ⟨hpos0 c (GoMap.mem_values_of_get _ _ _ hg), ?_⟩
    rw [← hsum]
    exact GoMap.get_le_sum_values _ _ _ hpos0 hg

/-- The number of IDs recorded for a user grows by at most one per call. -/
theorem processed_length_step (users : Users) (rec : Option Record) (n : Nat)
    (h : ∀ u ud, GoMap.get users u = some ud → (GoMap.keys ud.ProcessedEventIDs).length ≤ n) :
    ∀ u ud, GoMap.get (processRecord users rec).1 u = some ud →
      (GoMap.keys ud.ProcessedEventIDs).length ≤ n + 1 := by
  cases rec with
  | none => exact fun u ud hud => Nat.le_succ_of_le (h u ud hud)
  | some r =>
    by_cases hv : validate r = true
    · rw [processRecord_valid users r hv]
      intro u ud hud
      rw [GoMap.get_set] at hud
      split at hud
      · injection hud with hud
        subst hud
        have hold : (GoMap.keys ((GoMap.get users r.UserID).getD newUserData).ProcessedEventIDs).length
            ≤ n := by
          cases hg : GoMap.get users r.UserID with
          | none => simp [newUserData, GoMap.keys]
          | some ud0 => exact h _ _ hg
        by_cases he : r.Type_ = EVENT
        · rw [dispatch_event _ _ he]
          unfold incrementEvent
          cases hp : GoMap.get ((GoMap.get users r.UserID).getD newUserData).ProcessedEventIDs r.ID with
          | some b => exact Nat.le_succ_of_le hold
          | none =>
            show (GoMap.keys (GoMap.set _ _ _)).length ≤ n + 1
            rw [GoMap.keys_set]
            split
            · exact Nat.le_succ_of_le hold
            · rw [List.length_append, List.length_singleton]
              omega
        · by_cases ha : r.Type_ = ATTRIBUTES
          · rw [dispatch_attributes _ _ ha]
            exact Nat.le_succ_of_le hold
          · rw [dispatch_other _ _ he ha]
            exact Nat.le_succ_of_le hold
      · exact Nat.le_succ_of_le (h u ud hud)
    · simp only [Bool.not_eq_true] at hv
      rw [processRecord_invalid users r hv]
      exact fun u ud hud => Nat.le_succ_of_le (h u ud hud)

theorem processed_length_le (recs : List (Option Record)) :
    ∀ u ud, GoMap.get (processRecords [] recs) u = some ud →
      (GoMap.keys ud.ProcessedEventIDs).length ≤ recs.length := by
  induction recs using List.reverseRecOn with
  | nil =>
    intro u ud hud
    simp [processRecords, GoMap.get] at hud
  | append_singleton l rec ih =>
    rw [processRecords_append, List.length_append, List.length_singleton]
    exact processed_length_step _ rec l.length ih

/-- One call gives the same result with the wrapping and with the exact counter when
every aggregate satisfies the count invariant and holds fewer than `2^63-1` IDs. -/
theorem processRecord64_eq_of_bounded (users : Users) (rec : Option Record)
    (hinv : ∀ u ud, GoMap.get users u = some ud → CountInv ud)
    (hlen : ∀ u ud, GoMap.get users u = some ud →
      (GoMap.keys ud.ProcessedEventIDs).length + 1 < 2 ^ 63) :
    processRecord64 users rec = processRecord users rec := by
  by_cases hev : ∀ r, rec = some r → r.Type_ ≠ EVENT
  · exact processRecord64_of_not_event users rec hev
  · push_neg at hev
    obtain ⟨r, hrec, ht⟩ := hev
    subst hrec
    have hd : ∀ ud, CountInv ud → (GoMap.keys ud.ProcessedEventIDs).length + 1 < 2 ^ 63 →
        dispatch64 ud r = dispatch ud r := by
      intro ud hci hl
      rw [dispatch64_event _ _ ht, dispatch_event _ _ ht]
      obtain ⟨h0, h1⟩ := counter_bounds_of_CountInv ud r.Name hci
      have hl' : ((GoMap.keys ud.ProcessedEventIDs).length : Int) + 1 < 2 ^ 63 := by
        exact_mod_cast hl
      exact incrementEvent64_eq ud r.Name r.ID (by omega) (by omega)
    rcases hg : GoMap.get users r.UserID with _ | ud
    · have e := hd newUserData CountInv_newUserData (by simp [newUserData, GoMap.keys])
      simp only [processRecord64, processRecord, hg, e]
    · have e := hd ud (hinv _ _ hg) (hlen _ _ hg)
      simp only [processRecord64, processRecord, hg, e]

/-- From the empty users map, every run of fewer than `2^63` records gives the same
users map with the wrapping 64-bit counter as with the exact counter: no counter can
reach `2^63-1` before that many event IDs are stored. -/
theorem processRecords64_eq_processRecords (recs : List (Option Record))
    (hlen : recs.length < 2 ^ 63) :
    processRecords64 [] recs = processRecords [] recs := by
  induction recs using List.reverseRecOn with
  | nil => rfl
  | append_singleton l rec ih =>
    rw [List.length_append, List.length_singleton] at hlen
    have ih' := ih (by omega)
    have e64 : processRecords64 [] (l ++ [rec]) =
        (processRecord64 (processRecords64 [] l) rec).1 := by
      simp [processRecords64, List.foldl_append]
    rw [e64, ih', processRecords_append]
    show _ = (processRecord (processRecords [] l) rec).1
    rw [processRecord64_eq_of_bounded _ rec
      (CountInv_steps l [] (fun u ud hud => by simp [GoMap.get] at hud))
      (fun u ud hud => by
        have := processed_length_le l u ud hud
        omega)]

/-! ## Event records, with the 64-bit counter -/

/-- C15 (amended): for every users map and every valid event record `r`: when `r.ID`
is not in `ProcessedEventIDs` of `r.UserID` (in particular when the user does not exist
yet), after `processRecord` the user exists and `Events[r.Name]` has gone through one
`++` from its old value (0 when absent): it is the old value plus 1 whenever the old
value is an `int` below `2^63-1`, and `-2^63` when the old value is `2^63-1`; every
other event counter and the attributes are as before, and `ProcessedEventIDs` holds
`r.ID` in addition to exactly the IDs it held. When `r.ID` is already in
`ProcessedEventIDs` the users map is unchanged, whatever `r.Name` is. -/
theorem event_counter_incremented_once (users : Users) (r : Record)
    (hv : validate r = true) (ht : r.Type_ = EVENT) :
    (GoMap.get (aggregateOf users r.UserID).ProcessedEventIDs r.ID = none →
      ∃ ud, GoMap.get (processRecord64 users (some r)).1 r.UserID = some ud ∧
        GoMap.get ud.Events r.Name =
          some (wrapInt ((GoMap.get (aggregateOf users r.UserID).Events r.Name).getD 0 + 1)) ∧
        (-2 ^ 63 ≤ (GoMap.get (aggregateOf users r.UserID).Events r.Name).getD 0 →
          (GoMap.get (aggregateOf users r.UserID).Events r.Name).getD 0 < 2 ^ 63 - 1 →
          GoMap.get ud.Events r.Name =
            some ((GoMap.get (aggregateOf users r.UserID).Events r.Name).getD 0 + 1)) ∧
        ((GoMap.get (aggregateOf users r.UserID).Events r.Name).getD 0 = 2 ^ 63 - 1 →
          GoMap.get ud.Events r.Name = some (-2 ^ 63)) ∧
        (∀ n, n ≠ r.Name →
          GoMap.get ud.Events n = GoMap.get (aggregateOf users r.UserID).Events n) ∧
        ud.Attributes = (aggregateOf users r.UserID).Attributes ∧
        GoMap.get ud.ProcessedEventIDs r.ID = some true ∧
        (∀ i, i ≠ r.ID → GoMap.get ud.ProcessedEventIDs i =
          GoMap.get (aggregateOf users r.UserID).ProcessedEventIDs i) ∧
        GoMap.keys ud.ProcessedEventIDs =
          GoMap.keys (aggregateOf users r.UserID).ProcessedEventIDs ++ [r.ID]) ∧
    (∀ ud, GoMap.get users r.UserID = some ud →
      GoMap.get ud.ProcessedEventIDs r.ID ≠ none →
      (processRecord64 users (some r)).1 = users) := by
  constructor
  · intro hnew
    refine ⟨_, (aggregateOf_processRecord64_valid users r hv).1, ?_⟩
    rw [dispatch64_event _ _ ht, incrementEvent64_new _ _ _ hnew]
    have hk : r.ID ∉ GoMap.keys (aggregateOf users r.UserID).ProcessedEventIDs :=
      fun hmem => (GoMap.mem_keys_iff _ _).mp hmem hnew
    have hval : GoMap.get (GoMap.set (aggregateOf users r.UserID).Events r.Name
        (wrapInt ((GoMap.get (aggregateOf users r.UserID).Events r.Name).getD 0 + 1))) r.Name =
        some (wrapInt ((GoMap.get (aggregateOf users r.UserID).Events r.Name).getD 0 + 1)) :=
      GoMap.get_set_self _ _ _
    refine ⟨hval, ?_, ?_, ?_, rfl, GoMap.get_set_self _ _ _, ?_, ?_⟩
    · intro h0 h1
      show GoMap.get (GoMap.set _ _ _) r.Name = _
      rw [hval, wrapInt_of_int64 _ (by omega) (by omega)]
    · intro hmax
      show GoMap.get (GoMap.set _ _ _) r.Name = _
      rw [hval, hmax]
      decide
    · intro n hn
      exact GoMap.get_set_ne _ _ _ _ hn
    · intro i hi
      exact GoMap.get_set_ne _ _ _ _ hi
    · show GoMap.keys (GoMap.set _ _ _) = _
      rw [GoMap.keys_set]
      simp [hk]
  · intro ud hud hid
    rw [processRecord64_valid users r hv]
    apply GoMap.set_eq_self
    rw [hud]
    have hagg : aggregateOf users r.UserID = ud := by simp [aggregateOf, hud]
    rw [hagg, dispatch64_event _ _ ht, incrementEvent64_known _ _ _ hid]

/-- Witness for C15: the event `login` with the new ID `1` for `u1`. On the empty users
map the counter goes from absent to 1; on the users map where it stands at `2^63-1` it
wraps to `-2^63`; applied again after itself it changes nothing. -/
theorem event_counter_incremented_once_witness :
    validate sampleLogin = true ∧ sampleLogin.Type_ = EVENT ∧
    (∃ ud, GoMap.get (processRecord64 [] (some sampleLogin)).1 "u1" = some ud ∧
      GoMap.get ud.Events "login" = some 1 ∧
      GoMap.keys ud.ProcessedEventIDs = ["1"]) ∧
    (∃ ud, GoMap.get (processRecord64 usersAtMaxCounter (some sampleLogin)).1 "u1" = some ud ∧
      GoMap.get ud.Events "login" = some (-2 ^ 63)) ∧
    (processRecord64 (processRecord64 [] (some sampleLogin)).1 (some sampleLogin)).1 =
      (processRecord64 [] (some sampleLogin)).1 := by
  refine ⟨by decide, by decide, ?_, ?_, ?_⟩
  · obtain ⟨ud, h1, _, h3, _, _, _, _, _, h9⟩ :=
      (event_counter_incremented_once [] sampleLogin (by decide) (by decide)).1 (by decide)
    exact ⟨ud, h1, (h3 (by decide) (by decide)).trans (by decide), h9.trans (by decide)⟩
  · obtain ⟨ud, h1, _, _, h4, _⟩ :=
      (event_counter_incremented_once usersAtMaxCounter sampleLogin (by decide) (by decide)).1
        (by decide)
    exact ⟨ud, h1, h4 (by decide)⟩
  · exact (event_counter_incremented_once (processRecord64 [] (some sampleLogin)).1 sampleLogin
      (by decide) (by decide)).2
      { Attributes := [], Events := [("login", 1)], ProcessedEventIDs := [("1", true)] }
      (by decide) (by decide)

/-- C15 (counterexample to the claim as stated): in the users map where the counter
`login` of `u1` is `2^63-1` and no ID is recorded, the valid event `login` with the new
ID `1` does not increase the counter by 1: the `++` wraps it to `-2^63`. -/
theorem event_counter_wrap_counterexample :
    validate sampleLogin = true ∧ sampleLogin.Type_ = EVENT ∧
    GoMap.get (aggregateOf usersAtMaxCounter "u1").ProcessedEventIDs "1" = none ∧
    GoMap.get (aggregateOf usersAtMaxCounter "u1").Events "login" = some 9223372036854775807 ∧
    GoMap.get (aggregateOf (processRecord64 usersAtMaxCounter (some sampleLogin)).1
      "u1").Events "login" = some (-9223372036854775808) ∧
    GoMap.get (aggregateOf (processRecord64 usersAtMaxCounter (some sampleLogin)).1
      "u1").Events "login" ≠ some (9223372036854775807 + 1) := by
  decide


/-! ## Scope of deduplication, with the 64-bit counter -/

theorem counter_after_new_event64 (users : Users) (r : Record) (hv : validate r = true)
    (ht : r.Type_ = EVENT)
    (hnew : GoMap.get (aggregateOf users r.UserID).ProcessedEventIDs r.ID = none) :
    GoMap.get (aggregateOf (processRecord64 users (some r)).1 r.UserID).Events r.Name =
      some (wrapInt (counterOf users r.UserID r.Name + 1)) := by
  rw [(aggregateOf_processRecord64_valid users r hv).2, dispatch64_event _ _ ht,
    incrementEvent64_new _ _ _ hnew]
  exact GoMap.get_set_self _ _ _

theorem processRecords64_pair (users : Users) (a b : Option Record) :
    processRecords64 users [a, b] = (processRecord64 (processRecord64 users a).1 b).1 := rfl

/-- C19 (dedup is scoped to one user and to event records, amended): for every users
map, (a) two valid event records with the same ID and different user IDs, whose ID is
in `ProcessedEventIDs` of neither user, each put the counter of their name for their
own user through one `++` when applied one after the other; (b) a valid attribute
record leaves `ProcessedEventIDs` of its user as it was, so a later valid event record
for the same user with the same ID, not in `ProcessedEventIDs` before, still puts its
counter through one `++`; (c) two valid attribute records for the same user (their IDs
may be equal) that both contain a key are both merged into the entry of that key;
(d) one `++` adds 1 to an `int` below `2^63-1` and turns `2^63-1` into `-2^63`. -/
theorem dedup_scope_user_and_events (users : Users) :
    (∀ r1 r2 : Record, validate r1 = true → validate r2 = true →
      r1.Type_ = EVENT → r2.Type_ = EVENT → r1.ID = r2.ID → r1.UserID ≠ r2.UserID →
      GoMap.get (aggregateOf users r1.UserID).ProcessedEventIDs r1.ID = none →
      GoMap.get (aggregateOf users r2.UserID).ProcessedEventIDs r2.ID = none →
      GoMap.get (aggregateOf (processRecords64 users [some r1, some r2]) r1.UserID).Events
          r1.Name = some (wrapInt (counterOf users r1.UserID r1.Name + 1)) ∧
      GoMap.get (aggregateOf (processRecords64 users [some r1, some r2]) r2.UserID).Events
          r2.Name = some (wrapInt (counterOf users r2.UserID r2.Name + 1))) ∧
    (∀ ra re : Record, validate ra = true → validate re = true →
      ra.Type_ = ATTRIBUTES → re.Type_ = EVENT → ra.ID = re.ID → ra.UserID = re.UserID →
      (aggregateOf (processRecord64 users (some ra)).1 ra.UserID).ProcessedEventIDs =
        (aggregateOf users ra.UserID).ProcessedEventIDs ∧
      (GoMap.get (aggregateOf users re.UserID).ProcessedEventIDs re.ID = none →
        GoMap.get (aggregateOf (processRecords64 users [some ra, some re]) re.UserID).Events
            re.Name = some (wrapInt (counterOf users re.UserID re.Name + 1)))) ∧
    (∀ (r1 r2 : Record) (u k v1 v2 : String), IsAttrUpdate u k r1 → IsAttrUpdate u k r2 →
      r1.ID = r2.ID → GoMap.get r1.Data k = some v1 → GoMap.get r2.Data k = some v2 →
      attrOf (processRecords64 users [some r1, some r2]) u k =
        some (mergeAttr (some (mergeAttr (attrOf users u k) v1 r1.Timestamp)) v2
          r2.Timestamp)) ∧
    ((∀ x : Int, -2 ^ 63 ≤ x → x < 2 ^ 63 - 1 → wrapInt (x + 1) = x + 1) ∧
      wrapInt ((2 ^ 63 - 1) + 1) = -2 ^ 63) := by
  refine ⟨?_, ?_, ?_, ?_, by decide⟩
  · intro r1 r2 hv1 hv2 ht1 ht2 _ hne hnew1 hnew2
    rw [processRecords64_pair]
    constructor
    · rw [aggregateOf_processRecord64_of_ne _ r2 r1.UserID hne]
      exact counter_after_new_event64 users r1 hv1 ht1 hnew1
    · have hne' : r2.UserID ≠ r1.UserID := fun h => hne h.symm
      have hsame := aggregateOf_processRecord64_of_ne users r1 r2.UserID hne'
      rw [counter_after_new_event64 _ r2 hv2 ht2 (by rw [hsame]; exact hnew2)]
      unfold counterOf
      rw [hsame]
  · intro ra re hva hve hta hte _ hu
    have hnotev : ra.Type_ ≠ EVENT := by
      rw [hta]
      exact EVENT_ne_ATTRIBUTES
    have hagg : aggregateOf (processRecord64 users (some ra)).1 ra.UserID =
        processAttribute (aggregateOf users ra.UserID) ra := by
      rw [(aggregateOf_processRecord64_valid users ra hva).2, dispatch64_of_not_event _ _ hnotev,
        dispatch_attributes _ _ hta]
    have hproc : (aggregateOf (processRecord64 users (some ra)).1 ra.UserID).ProcessedEventIDs =
        (aggregateOf users ra.UserID).ProcessedEventIDs := by
      rw [hagg]
      rfl
    have hev : (aggregateOf (processRecord64 users (some ra)).1 ra.UserID).Events =
        (aggregateOf users ra.UserID).Events := by
      rw [hagg]
      rfl
    refine ⟨hproc, ?_⟩
    intro hnew
    rw [processRecords64_pair,
      counter_after_new_event64 _ re hve hte (by rw [← hu, hproc, hu]; exact hnew)]
    unfold counterOf
    rw [← hu, hev]
  · intro r1 r2 u k v1 v2 h1 h2 _ hd1 hd2
    have hne1 : ∀ r, some r1 = some r → r.Type_ ≠ EVENT := by
      intro r hr
      injection hr with hr
      rw [← hr, h1.2.1]
      exact EVENT_ne_ATTRIBUTES
    have hne2 : ∀ r, some r2 = some r → r.Type_ ≠ EVENT := by
      intro r hr
      injection hr with hr
      rw [← hr, h2.2.1]
      exact EVENT_ne_ATTRIBUTES
    rw [processRecords64_pair, processRecord64_of_not_event _ _ hne2,
      processRecord64_of_not_event _ _ hne1,
      attrOf_processRecord_of_update _ r2 u k v2 h2 hd2,
      attrOf_processRecord_of_update _ r1 u k v1 h1 hd1]
  · intro x h0 h1
    exact wrapInt_of_int64 _ (by omega) (by omega)

/-- Witness for C19: on the empty users map, `login` for `u1` and `login` for `u2`
share ID `1` and are both counted; the attribute record with ID `2` for `u1` followed
by the event `upgrade` with ID `2` still counts the event; the two attribute records
with ID `2` are both merged (`pro` at 5, then `free` at 20). -/
theorem dedup_scope_user_and_events_witness :
    GoMap.get (aggregateOf (processRecords64 [] [some sampleLogin, some sampleLoginU2])
      "u1").Events "login" = some (wrapInt (counterOf [] "u1" "login" + 1)) ∧
    GoMap.get (aggregateOf (processRecords64 [] [some sampleLogin, some sampleLoginU2])
      "u2").Events "login" = some (wrapInt (counterOf [] "u2" "login" + 1)) ∧
    wrapInt (counterOf [] "u1" "login" + 1) = 1 ∧ wrapInt (counterOf [] "u2" "login" + 1) = 1 ∧
    GoMap.get (aggregateOf (processRecords64 [] [some samplePlanPro, some sampleUpgrade])
      "u1").Events "upgrade" = some (wrapInt (counterOf [] "u1" "upgrade" + 1)) ∧
    attrOf (processRecords64 [] [some samplePlanPro, some samplePlanFree]) "u1" "plan" =
      some { Data := "free", Timestamp := 20 } :=
  ⟨((dedup_scope_user_and_events []).1 sampleLogin sampleLoginU2 (by decide) (by decide)
      (by decide) (by decide) (by decide) (by decide) (by decide) (by decide)).1,
    ((dedup_scope_user_and_events []).1 sampleLogin sampleLoginU2 (by decide) (by decide)
      (by decide) (by decide) (by decide) (by decide) (by decide) (by decide)).2,
    by decide, by decide,
    ((dedup_scope_user_and_events []).2.1 samplePlanPro sampleUpgrade (by decide) (by decide)
      (by decide) (by decide) (by decide) (by decide)).2 (by decide),
    (dedup_scope_user_and_events []).2.2.1 samplePlanPro samplePlanFree "u1" "plan" "pro" "free"
      (by decide) (by decide) (by decide) (by decide) (by decide)⟩

/-- C19 (counterexamples to the claim as stated). (a) In the users map reached by the
event `signup` with ID `1` for `u2`, the valid events `login` for `u1` and `login` for
`u2` share ID `1` and have different user IDs, yet the second increments no counter of
`u2`. (b) In the users map reached by the event `signup` with ID `2` for `u1`, the
attribute record with ID `2` for `u1` followed by the event `upgrade` with ID `2` for
`u1` does not count the event. (c) In the users map where the counter `login` of `u1`
is `2^63-1`, the events `login` for `u1` and for `u2` with ID `1` are both new, and the
counter of `u1` does not go up: it wraps to `-2^63`. -/
theorem dedup_scope_counterexample :
    (validate sampleLogin = true ∧ validate sampleLoginU2 = true ∧
      sampleLogin.Type_ = EVENT ∧ sampleLoginU2.Type_ = EVENT ∧
      sampleLogin.ID = sampleLoginU2.ID ∧ sampleLogin.UserID ≠ sampleLoginU2.UserID ∧
      GoMap.get (processRecords64 (processRecords64 [] [some sampleSignupU2])
          [some sampleLogin, some sampleLoginU2]) "u2" =
        GoMap.get (processRecords64 [] [some sampleSignupU2]) "u2" ∧
      GoMap.get (aggregateOf (processRecords64 (processRecords64 [] [some sampleSignupU2])
          [some sampleLogin, some sampleLoginU2]) "u2").Events "login" = none) ∧
    (validate samplePlanPro = true ∧ validate sampleUpgrade = true ∧
      samplePlanPro.Type_ = ATTRIBUTES ∧ sampleUpgrade.Type_ = EVENT ∧
      samplePlanPro.ID = sampleUpgrade.ID ∧ samplePlanPro.UserID = sampleUpgrade.UserID ∧
      GoMap.get (aggregateOf (processRecords64 (processRecords64 [] [some sampleSignupID2])
          [some samplePlanPro, some sampleUpgrade]) "u1").Events "upgrade" = none ∧
      (aggregateOf (processRecords64 (processRecords64 [] [some sampleSignupID2])
          [some samplePlanPro, some sampleUpgrade]) "u1").Events =
        (aggregateOf (processRecords64 [] [some sampleSignupID2]) "u1").Events) ∧
    (GoMap.get (aggregateOf usersAtMaxCounter "u1").ProcessedEventIDs "1" = none ∧
      GoMap.get (aggregateOf usersAtMaxCounter "u2").ProcessedEventIDs "1" = none ∧
      counterOf usersAtMaxCounter "u1" "login" = 9223372036854775807 ∧
      GoMap.get (aggregateOf (processRecords64 usersAtMaxCounter
          [some sampleLogin, some sampleLoginU2]) "u1").Events "login" =
        some (-9223372036854775808)) := by
  decide

end UserBehaviour
